import Mathlib

/-!
Verification of the resilient extraction pipeline of the astrografe repository.

The development shallowly embeds the TypeScript sources:
  * `src/lib/normalizer.ts`   (text normalizer `normalizeText`)
  * `src/lib/circuit-breaker.ts` (`CircuitBreaker`, `ModelPool`)
  * `src/lib/extractor.ts`    (`parseExtractionResponse`, `isRetryableModel`,
                               `extractDescricao`)
  * `src/lib/openrouter.ts`   (call outcome contract of `chatCompletion`)

JS strings are modelled as `List Char`; wall-clock instants (`Date.now()`)
as `Nat` milliseconds; JS numbers as `Rat` (exact rationals instead of IEEE
doubles; no claim below depends on float rounding).  Fallible code returns
`Except`/`Option`.  The accented character classes of the normalizer are the
ones of the source regexes `/^[A-ZÁÀÃÂÉÊÍÓÔÕÚÇ]/` and `/[a-záàãâéêíóôõúç]$/iu`.
-/

namespace Astro

/-- The whitespace set of the JS `String.prototype.trim` / `\s` class:
space, tab, LF, VT, FF, CR, NBSP, Ogham space, the U+2000–U+200A range,
LS, PS, NNBSP, MMSP, ideographic space, BOM. -/
def isJsWs (c : Char) : Bool :=
  c = ' ' || c = '\t' || c = '\n' || c = '\x0b' || c = '\x0c' || c = '\r' ||
  c = ' ' || c = ' ' ||
  (0x2000 ≤ c.val && c.val ≤ 0x200A) ||
  c = ' ' || c = ' ' || c = ' ' || c = ' ' ||
  c = '　' || c = '﻿'

/-- JS `String.prototype.trim`: drop leading and trailing whitespace. -/
def jsTrim (l : List Char) : List Char :=
  ((l.dropWhile isJsWs).reverse.dropWhile isJsWs).reverse

/-! ## Normalizer (`src/lib/normalizer.ts`) -/

/-- First replace of step 1: `raw.replace(/\r\n/g, "\n")` (global,
left-to-right, non-overlapping). -/
def replCrlf : List Char → List Char
  | [] => []
  | '\r' :: '\n' :: rest => '\n' :: replCrlf rest
  | c :: rest => c :: replCrlf rest

/-- Step 1 of `normalizeText`: `.replace(/\r\n/g,"\n").replace(/\r/g,"\n")`. -/
def fixLineEndings (l : List Char) : List Char :=
  (replCrlf l).map (fun c => if c = '\r' then '\n' else c)

/-- JS `text.split("\n")`: always returns at least one piece; `""` yields
`[""]`. -/
def splitNl : List Char → List (List Char)
  | [] => [[]]
  | c :: rest =>
    if c = '\n' then [] :: splitNl rest
    else
      match splitNl rest with
      | [] => [[c]]
      | h :: t => (c :: h) :: t

/-- `lines.join("\n")`. -/
def joinNl : List (List Char) → List Char
  | [] => []
  | [l] => l
  | l :: rest => l ++ '\n' :: joinNl rest

/-- Step 3 of `normalizeText`: collapse runs of blank lines to a single blank
line.  The source loop counts consecutive blanks and pushes a blank only for
the first of a run; the boolean argument is `blankCount > 0` (whether the
previous line was blank). -/
def collapseBlanks : Bool → List (List Char) → List (List Char)
  | _, [] => []
  | prevBlank, l :: rest =>
    if l = [] then
      if prevBlank then collapseBlanks true rest
      else [] :: collapseBlanks true rest
    else l :: collapseBlanks false rest

/-- Step 4, the `SOFT_HYPHEN` global replace: a hyphen directly before a line
break is deleted together with the break (global, left-to-right,
non-overlapping). -/
def removeSoftHyphen : List Char → List Char
  | [] => []
  | '-' :: '\n' :: rest => removeSoftHyphen rest
  | c :: rest => c :: removeSoftHyphen rest

/-- The accented lowercase letters of the source regex
`ENDS_MID_WORD = /[a-záàãâéêíóôõúç]$/iu`. -/
def accentedLower : List Char := ['á', 'à', 'ã', 'â', 'é', 'ê', 'í', 'ó', 'ô', 'õ', 'ú', 'ç']

/-- The accented uppercase letters of the source regex
`UPPERCASE_START = /^[A-ZÁÀÃÂÉÊÍÓÔÕÚÇ]/`. -/
def accentedUpper : List Char := ['Á', 'À', 'Ã', 'Â', 'É', 'Ê', 'Í', 'Ó', 'Ô', 'Õ', 'Ú', 'Ç']

/-- A character matched by `ENDS_MID_WORD = /[a-záàãâéêíóôõúç]$/iu`.  The `i`
flag makes the class case-insensitive, so the uppercase counterparts (and the
two extra simple case foldings of `[a-z]` under `/iu`: long s U+017F and the
Kelvin sign U+212A) match as well. -/
def isMidWordChar (c : Char) : Bool :=
  ('a' ≤ c && c ≤ 'z') || ('A' ≤ c && c ≤ 'Z') ||
  accentedLower.contains c || accentedUpper.contains c ||
  c = 'ſ' || c = 'K'

/-- A character matched by `UPPERCASE_START = /^[A-ZÁÀÃÂÉÊÍÓÔÕÚÇ]/`
(no `i` flag: exact set). -/
def isUpperStartChar (c : Char) : Bool :=
  ('A' ≤ c && c ≤ 'Z') || accentedUpper.contains c

/-- `SENTENCE_ENDERS = /[.;:?!]$/` applied to a line: test on the last
character (an empty line has none and never matches). -/
def sentenceEnder (l : List Char) : Bool :=
  match l.getLast? with
  | some c => c = '.' || c = ';' || c = ':' || c = '?' || c = '!'
  | none => false

/-- `ENDS_MID_WORD.test(line)`. -/
def endsMidWord (l : List Char) : Bool :=
  match l.getLast? with
  | some c => isMidWordChar c
  | none => false

/-- `ENDS_WITH_COMMA = /,$/` applied to a line. -/
def endsComma (l : List Char) : Bool :=
  match l.getLast? with
  | some c => c = ','
  | none => false

/-- `UPPERCASE_START.test(line)`. -/
def upperStart (l : List Char) : Bool :=
  match l.head? with
  | some c => isUpperStartChar c
  | none => false

/-- The `canJoin` condition of the merge pass (step 5): the next line is
non-blank, the current line ends mid-word or with a comma, does not end with
sentence-ending punctuation, and the next line does not start uppercase. -/
def canJoin (cur nxt : List Char) : Bool :=
  !nxt.isEmpty && (endsMidWord cur || endsComma cur) &&
  !sentenceEnder cur && !upperStart nxt

mutual

/-- Inner `while` loop of step 5: greedily absorb following lines into
`cur` (inserting a single space) while `canJoin` holds. -/
def mergeGo (cur : List Char) : List (List Char) → List (List Char)
  | [] => [cur]
  | n :: rest =>
    if canJoin cur n then mergeGo (cur ++ ' ' :: n) rest
    else cur :: (if n = [] then [] :: mergeLines rest else mergeGo n rest)

/-- Outer `while` loop of step 5 over the split lines: blank lines are pushed
unchanged, non-blank lines start a greedy merge. -/
def mergeLines : List (List Char) → List (List Char)
  | [] => []
  | l :: rest => if l = [] then [] :: mergeLines rest else mergeGo l rest

end

/-- `normalizeText` of `src/lib/normalizer.ts` on character lists:
1. unify line endings, 2. trim each line, 3. collapse blank-line runs,
4. remove soft hyphenation, 5. merge mid-sentence line breaks,
6. trim the result. -/
def normalizeChars (raw : List Char) : List Char :=
  let text := fixLineEndings raw
  let lines := (splitNl text).map jsTrim
  let collapsed := collapseBlanks false lines
  let text2 := removeSoftHyphen (joinNl collapsed)
  let parts := splitNl text2
  jsTrim (joinNl (mergeLines parts))

/-- `normalizeText` on Lean strings. -/
def normalizeText (s : String) : String :=
  ⟨normalizeChars s.data⟩

/-! ## Circuit breaker and model pool (`src/lib/circuit-breaker.ts`) -/

/-- `MAX_COOLDOWN_MS = 10 * 60 * 1000`. -/
def MAX_COOLDOWN_MS : Nat := 10 * 60 * 1000

/-- `BASE_COOLDOWN_MS = 30 * 1000`. -/
def BASE_COOLDOWN_MS : Nat := 30 * 1000

/-- State of one `CircuitBreaker` instance. -/
structure CircuitBreaker where
  modelId : String
  failCount : Nat
  cooldownUntil : Nat
deriving DecidableEq, Repr

/-- `new CircuitBreaker(id)`: `failCount = 0`, `cooldownUntil = 0`. -/
def CircuitBreaker.mk0 (id : String) : CircuitBreaker := ⟨id, 0, 0⟩

/-- `isHealthy()`: `Date.now() >= cooldownUntil`, at instant `now`. -/
def CircuitBreaker.isHealthy (b : CircuitBreaker) (now : Nat) : Bool :=
  b.cooldownUntil ≤ now

/-- `recordSuccess()`: reset both counters. -/
def CircuitBreaker.recordSuccess (b : CircuitBreaker) : CircuitBreaker :=
  { b with failCount := 0, cooldownUntil := 0 }

/-- `recordFailure()` at instant `now`: increment `failCount`, then
`cooldownUntil = now + min(2^(failCount-1) * BASE, MAX)`. -/
def CircuitBreaker.recordFailure (b : CircuitBreaker) (now : Nat) : CircuitBreaker :=
  let fc := b.failCount + 1
  { b with
    failCount := fc,
    cooldownUntil := now + min (2 ^ (fc - 1) * BASE_COOLDOWN_MS) MAX_COOLDOWN_MS }

/-- State of a `ModelPool`: the fixed ordered identifier list, one breaker per
identifier (an association list mirroring the source `Map`), and the rotation
cursor. -/
structure ModelPool where
  models : List String
  breakers : List (String × CircuitBreaker)
  cursor : Nat
deriving DecidableEq, Repr

/-- `new ModelPool(modelIds)`. -/
def ModelPool.mk0 (modelIds : List String) : ModelPool :=
  ⟨modelIds, modelIds.map (fun id => (id, CircuitBreaker.mk0 id)), 0⟩

/-- `pool.size`. -/
def ModelPool.size (p : ModelPool) : Nat := p.models.length

/-- `this.breakers.get(model)!.isHealthy()` for the identifier at play; every
identifier produced by the constructor has a breaker, a missing entry is
treated as healthy (a fresh breaker is healthy). -/
def ModelPool.healthy (p : ModelPool) (now : Nat) (m : String) : Bool :=
  match p.breakers.lookup m with
  | some b => b.isHealthy now
  | none => true

/-- The `for` loop inside `nextHealthy`: `i` is the current loop counter and
`remaining` the number of indices still to examine; returns the index `idx`
of the first healthy model, if any. -/
def ModelPool.scanLoop (p : ModelPool) (now : Nat) : Nat → Nat → Option Nat
  | _, 0 => none
  | i, r + 1 =>
    let idx := (p.cursor + i) % p.models.length
    if p.healthy now (p.models.getD idx "") then some idx
    else p.scanLoop now (i + 1) r

/-- `nextHealthy()`: scan the list starting at the cursor (wrapping), return
the first healthy identifier and advance the cursor just past its position;
`none` (and an unchanged pool) when no identifier is healthy. -/
def ModelPool.nextHealthy (p : ModelPool) (now : Nat) : Option String × ModelPool :=
  match p.scanLoop now 0 p.models.length with
  | some idx =>
    (some (p.models.getD idx ""), { p with cursor := (idx + 1) % p.models.length })
  | none => (none, p)

/-- `recordSuccess(modelId)`: delegate to that identifier's breaker, no-op
for an unknown identifier. -/
def ModelPool.recordSuccess (p : ModelPool) (m : String) : ModelPool :=
  { p with
    breakers := p.breakers.map (fun e => if e.1 = m then (e.1, e.2.recordSuccess) else e) }

/-- `recordFailure(modelId)` at instant `now`. -/
def ModelPool.recordFailure (p : ModelPool) (m : String) (now : Nat) : ModelPool :=
  { p with
    breakers := p.breakers.map (fun e => if e.1 = m then (e.1, e.2.recordFailure now) else e) }

/-! ## JSON values and `JSON.parse` (used by `parseExtractionResponse`) -/

/-- A parsed JSON value.  Numbers are exact rationals (the source works with
IEEE doubles; no claim depends on rounding).  Objects keep their members in
source order; duplicate keys are resolved to the last occurrence by
`objGet`, as JS object literals do. -/
inductive JValue where
  | null
  | bool (b : Bool)
  | num (q : ℚ)
  | str (s : String)
  | arr (elems : List JValue)
  | obj (fields : List (String × JValue))
deriving Repr

/-- JSON whitespace (strict set of the JSON grammar). -/
def isJsonWs (c : Char) : Bool :=
  c = ' ' || c = '\t' || c = '\n' || c = '\r'

/-- Numeric value of a hexadecimal digit, on code points: 0x30–0x39 are the
decimal digits, 0x61–0x66 and 0x41–0x46 the two letter ranges. -/
def hexVal? (c : Char) : Option Nat :=
  let n := c.toNat
  if 0x30 ≤ n && n ≤ 0x39 then some (n - 0x30)
  else if 0x61 ≤ n && n ≤ 0x66 then some (n - 0x57)
  else if 0x41 ≤ n && n ≤ 0x46 then some (n - 0x37)
  else none

/-- Body of a JSON string after the opening quote: characters up to the
closing quote, with the escapes of the JSON grammar; raw control characters
are rejected.  (Lone surrogates from `\uXXXX` are collapsed by `Char.ofNat`;
no claim depends on them.) -/
def parseStrBody : List Char → Option (List Char × List Char)
  | [] => none
  | '"' :: rest => some ([], rest)
  | '\\' :: rest =>
    match rest with
    | '"' :: r => (parseStrBody r).map (fun p => ('"' :: p.1, p.2))
    | '\\' :: r => (parseStrBody r).map (fun p => ('\\' :: p.1, p.2))
    | '/' :: r => (parseStrBody r).map (fun p => ('/' :: p.1, p.2))
    | 'b' :: r => (parseStrBody r).map (fun p => ('\x08' :: p.1, p.2))
    | 'f' :: r => (parseStrBody r).map (fun p => ('\x0c' :: p.1, p.2))
    | 'n' :: r => (parseStrBody r).map (fun p => ('\n' :: p.1, p.2))
    | 'r' :: r => (parseStrBody r).map (fun p => ('\r' :: p.1, p.2))
    | 't' :: r => (parseStrBody r).map (fun p => ('\t' :: p.1, p.2))
    | 'u' :: h1 :: h2 :: h3 :: h4 :: r =>
      match hexVal? h1, hexVal? h2, hexVal? h3, hexVal? h4 with
      | some a, some b, some c, some d =>
        (parseStrBody r).map (fun p => (Char.ofNat (((a * 16 + b) * 16 + c) * 16 + d) :: p.1, p.2))
      | _, _, _, _ => none
    | _ => none
  | c :: rest =>
    if c.val < 0x20 then none
    else (parseStrBody rest).map (fun p => (c :: p.1, p.2))

/-- A decimal digit. -/
def isDigit (c : Char) : Bool := '0' ≤ c && c ≤ '9'

/-- Value of a list of decimal digits. -/
def digitsToNat (ds : List Char) : Nat :=
  ds.foldl (fun n c => n * 10 + (c.toNat - '0'.toNat)) 0

/-- A JSON number starting at the head of the input, per the strict JSON
grammar (optional minus, integer part without leading zeros, optional
fraction, optional exponent). -/
def parseNum (l : List Char) : Option (ℚ × List Char) :=
  let (neg, l1) := match l with
    | '-' :: r => (true, r)
    | _ => (false, l)
  match l1.span isDigit with
  | ([], _) => none
  | (ds, r1) =>
    if 1 < ds.length ∧ ds.head? = some '0' then none
    else
      let fracCont : List Char × List Char → Option (ℚ × List Char) := fun fr =>
        let fds := fr.1
        let r2 := fr.2
        let finish : Int → List Char → Option (ℚ × List Char) := fun ex r =>
          let mant : ℚ := (digitsToNat (ds ++ fds) : ℚ)
          let base : ℚ := mant / (10 : ℚ) ^ fds.length
          let signed : ℚ := if neg then -base else base
          some (signed * (10 : ℚ) ^ ex, r)
        match r2 with
        | 'e' :: r3 =>
          let (eneg, r4) := match r3 with
            | '-' :: r5 => (true, r5)
            | '+' :: r5 => (false, r5)
            | _ => (false, r3)
          match r4.span isDigit with
          | ([], _) => none
          | (eds, r5) => finish (if eneg then -(digitsToNat eds : Int) else (digitsToNat eds : Int)) r5
        | 'E' :: r3 =>
          let (eneg, r4) := match r3 with
            | '-' :: r5 => (true, r5)
            | '+' :: r5 => (false, r5)
            | _ => (false, r3)
          match r4.span isDigit with
          | ([], _) => none
          | (eds, r5) => finish (if eneg then -(digitsToNat eds : Int) else (digitsToNat eds : Int)) r5
        | _ => finish 0 r2
      match r1 with
      | '.' :: r =>
        match r.span isDigit with
        | ([], _) => none
        | fr => fracCont fr
      | _ => fracCont ([], r1)

mutual

/-- One JSON value starting at the head of the input (leading whitespace
allowed), fuel-bounded. -/
def parseVal : Nat → List Char → Option (JValue × List Char)
  | 0, _ => none
  | fuel + 1, s =>
    match s.dropWhile isJsonWs with
    | 'n' :: 'u' :: 'l' :: 'l' :: r => some (.null, r)
    | 't' :: 'r' :: 'u' :: 'e' :: r => some (.bool true, r)
    | 'f' :: 'a' :: 'l' :: 's' :: 'e' :: r => some (.bool false, r)
    | '"' :: r => (parseStrBody r).map (fun p => (.str ⟨p.1⟩, p.2))
    | '[' :: r => parseArrRest fuel r
    | '{' :: r => parseObjRest fuel r
    | s1 => (parseNum s1).map (fun p => (.num p.1, p.2))

/-- Rest of a JSON array after `[`. -/
def parseArrRest : Nat → List Char → Option (JValue × List Char)
  | 0, _ => none
  | fuel + 1, s =>
    match s.dropWhile isJsonWs with
    | ']' :: r => some (.arr [], r)
    | _ => parseElems fuel s []

/-- Comma-separated array elements up to `]` (accumulator reversed). -/
def parseElems : Nat → List Char → List JValue → Option (JValue × List Char)
  | 0, _, _ => none
  | fuel + 1, s, acc =>
    match parseVal fuel s with
    | none => none
    | some (v, r) =>
      match r.dropWhile isJsonWs with
      | ',' :: r2 => parseElems fuel r2 (v :: acc)
      | ']' :: r2 => some (.arr (v :: acc).reverse, r2)
      | _ => none

/-- Rest of a JSON object after an opening brace. -/
def parseObjRest : Nat → List Char → Option (JValue × List Char)
  | 0, _ => none
  | fuel + 1, s =>
    match s.dropWhile isJsonWs with
    | '}' :: r => some (.obj [], r)
    | _ => parseMembers fuel s []

/-- Comma-separated `"key": value` members up to a closing brace. -/
def parseMembers : Nat → List Char → List (String × JValue) → Option (JValue × List Char)
  | 0, _, _ => none
  | fuel + 1, s, acc =>
    match s.dropWhile isJsonWs with
    | '"' :: r =>
      match parseStrBody r with
      | none => none
      | some (k, r1) =>
        match r1.dropWhile isJsonWs with
        | ':' :: r2 =>
          match parseVal fuel r2 with
          | none => none
          | some (v, r3) =>
            match r3.dropWhile isJsonWs with
            | ',' :: r4 => parseMembers fuel r4 ((⟨k⟩, v) :: acc)
            | '}' :: r4 => some (.obj ((⟨k⟩, v) :: acc).reverse, r4)
            | _ => none
        | _ => none
    | _ => none

end

/-- `JSON.parse`: a single JSON value with nothing but whitespace around it.
The fuel is generous; the theorems below never rely on parses failing for
lack of fuel. -/
def jsonParse (s : List Char) : Option JValue :=
  match parseVal (4 * (s.length + 1)) s with
  | some (v, r) => if r.dropWhile isJsonWs = [] then some v else none
  | none => none

/-! ## Response validation (`parseExtractionResponse` of `src/lib/extractor.ts`) -/

/-- One line item of the validated response. -/
structure LineItem where
  descricao : String
  medida : Option String
  quant : String
  preco_unit : String
deriving DecidableEq, Repr

/-- The validated payload of a provider response. -/
structure ParsedJSON where
  descricao : String
  confidence : ℚ
  warnings : List String
  line_items : List LineItem
deriving DecidableEq, Repr

/-- The failure classes of `parseExtractionResponse`: the two explicit
`throw new Error(...)` sites, and the implicit JS `TypeError` raised by
property access on `null`. -/
inductive ParseErr where
  | invalidJson (snippet : String)
  | missingDescricao
  | typeError
deriving DecidableEq, Repr

/-- Member lookup on a JS object built by `JSON.parse`: the last occurrence
of a duplicated key wins. -/
def objGet (fields : List (String × JValue)) (k : String) : Option JValue :=
  fields.reverse.lookup k

/-- JS property access `v[k]` on a non-null JSON value: a member for objects,
`undefined` (`none`) for arrays and primitives. -/
def getF (v : JValue) (k : String) : Option JValue :=
  match v with
  | .obj fields => objGet fields k
  | _ => none

/-- The `line_items` filter predicate plus the kept-element projection of the
source: `typeof item === "object"` (true for `null`, arrays and objects),
then string-typed `descricao`, `quant`, `preco_unit`; `medida` is kept only
when it is a non-empty string.  Accessing a property of `null` raises a
`TypeError`, modelled as `Except.error`. -/
def lineItemOf (x : JValue) : Except Unit (Option LineItem) :=
  match x with
  | .null => .error ()
  | .obj f =>
    match objGet f "descricao", objGet f "quant", objGet f "preco_unit" with
    | some (.str d), some (.str q), some (.str pu) =>
      .ok (some ⟨d,
        (match objGet f "medida" with
         | some (.str m) => if m = "" then none else some m
         | _ => none), q, pu⟩)
    | _, _, _ => .ok none
  | _ => .ok none

/-- The `filter`/`map` pass over the `line_items` array, visiting elements
left to right and propagating the `TypeError` of a `null` element. -/
def collectItems : List JValue → Except Unit (List LineItem)
  | [] => .ok []
  | x :: xs =>
    match lineItemOf x with
    | .error _ => .error ()
    | .ok none => collectItems xs
    | .ok (some it) => (collectItems xs).map (it :: ·)

/-- The validation of the parsed JSON value (`extractor.ts` after
`JSON.parse`): require a non-empty trimmed string `descricao`; clamp a
numeric `confidence` to `[0,1]`, defaulting to `0.5`; keep the string
elements of a `warnings` array; keep the well-formed `line_items`.
Property access on a `null` root throws. -/
def validateParsed (v : JValue) : Except ParseErr ParsedJSON :=
  match v with
  | .null => .error .typeError
  | _ =>
    match getF v "descricao" with
    | some (.str d) =>
      if jsTrim d.data = [] then .error .missingDescricao
      else
        let conf : ℚ :=
          match getF v "confidence" with
          | some (.num q) => min 1 (max 0 q)
          | _ => 1 / 2
        let warnings : List String :=
          match getF v "warnings" with
          | some (.arr ws) => ws.filterMap (fun w => match w with | .str s => some s | _ => none)
          | _ => []
        match getF v "line_items" with
        | some (.arr xs) =>
          match collectItems xs with
          | .error _ => .error .typeError
          | .ok items => .ok ⟨⟨jsTrim d.data⟩, conf, warnings, items⟩
        | _ => .ok ⟨⟨jsTrim d.data⟩, conf, warnings, []⟩
    | _ => .error .missingDescricao

/-- The backquote character (code 0x60). -/
def backquote : Char := Char.ofNat 0x60

/-- The leading code-fence replace of `parseExtractionResponse` (applied to
the already-trimmed raw text, so the leading whitespace of the pattern is
vacuous): strip a leading triple backquote, an optional case-insensitive
`json` tag, and any following whitespace. -/
def stripFenceFront (l : List Char) : List Char :=
  if l.take 3 = [backquote, backquote, backquote] then
    let r := l.drop 3
    let r1 := if (r.take 4).map Char.toLower = ['j', 's', 'o', 'n'] then r.drop 4 else r
    r1.dropWhile isJsWs
  else l

/-- The trailing code-fence replace: an optional line break, whitespace, a
triple backquote and trailing whitespace at the very end; no change when the
pattern does not match. -/
def stripFenceBack (l : List Char) : List Char :=
  let r := l.reverse.dropWhile isJsWs
  if r.take 3 = [backquote, backquote, backquote] then
    let r2 := (r.drop 3).dropWhile isJsWs
    let r3 := match r2 with
      | '\n' :: t => t
      | _ => r2
    r3.reverse
  else l

/-- The cleaning pipeline of `parseExtractionResponse`:
`raw.trim()` then the two fence replaces then `.trim()`. -/
def jsFence (l : List Char) : List Char :=
  jsTrim (stripFenceBack (stripFenceFront (jsTrim l)))

/-- `parseExtractionResponse(raw)`: strip fences, `JSON.parse`, validate. -/
def parseExtractionResponse (raw : String) : Except ParseErr ParsedJSON :=
  let cleaned := jsFence raw.data
  match jsonParse cleaned with
  | none => .error (.invalidJson ⟨cleaned.take 100⟩)
  | some v => validateParsed v

/-! ## Extractor (`extractDescricao` of `src/lib/extractor.ts`) -/

/-- `isRetryableModel(status)`: `status === 429 || status >= 500`. -/
def isRetryableModel (status : Nat) : Bool :=
  status == 429 || 500 ≤ status

/-- Outcome of one `chatCompletion` call: either a response (content, the
identifier of the provider that actually served the request, token usage) or
an `OpenRouterError` carrying the HTTP status and body. -/
inductive ChatOutcome where
  | ok (content : String) (model : String) (promptTokens completionTokens : Nat)
  | fail (status : Nat) (body : String)
deriving DecidableEq, Repr

/-- The classified errors `extractDescricao` can surface. -/
inductive ExtractErr where
  | allCooldown
  | openRouter (status : Nat) (body : String)
  | parseFail (e : ParseErr)
  | exhausted
deriving DecidableEq, Repr

/-- The result record returned on success (`{ ...parsed, model_used: modelId }`). -/
structure ExtractionResult where
  descricao : String
  confidence : ℚ
  warnings : List String
  model_used : String
  line_items : List LineItem
deriving DecidableEq, Repr

/-- Spread of the parsed payload plus the requested model identifier. -/
def mkResult (p : ParsedJSON) (m : String) : ExtractionResult :=
  ⟨p.descricao, p.confidence, p.warnings, m, p.line_items⟩

/-- Equality of `Except` values is decidable when it is on both sides. -/
instance {ε α : Type} [DecidableEq ε] [DecidableEq α] : DecidableEq (Except ε α) := fun a b =>
  match a, b with
  | .ok x, .ok y => if h : x = y then isTrue (by rw [h]) else isFalse (by simp [h])
  | .error x, .error y => if h : x = y then isTrue (by rw [h]) else isFalse (by simp [h])
  | .ok _, .error _ => isFalse (by simp)
  | .error _, .ok _ => isFalse (by simp)

/-- Result of a whole `extractDescricao` invocation: the returned value or
thrown error, the final pool state, and the number of `chatCompletion`
calls that were made. -/
structure RunOutcome where
  res : Except ExtractErr ExtractionResult
  pool : ModelPool
  calls : Nat
deriving DecidableEq, Repr

/-- The attempt loop of `extractDescricao`.  `chat k` is the outcome of the
provider call of attempt `k` and `tm k` the wall-clock instant of attempt
`k`; `fuel` is the number of attempts left and `last` the `lastError`
accumulator.  Branches, in source order: a transient provider failure
(`isRetryableModel`) penalizes the breaker and continues; a fatal provider
failure penalizes the breaker and continues only from attempt 0; a parse
failure continues only from attempt 0 without penalizing the breaker. -/
def extractGo (chat : Nat → ChatOutcome) (tm : Nat → Nat) :
    Nat → Nat → Option ExtractErr → ModelPool → RunOutcome
  | 0, _, last, p => ⟨.error (last.getD .exhausted), p, 0⟩
  | fuel + 1, attempt, _last, p =>
    match p.nextHealthy (tm attempt) with
    | (none, p1) => ⟨.error .allCooldown, p1, 0⟩
    | (some m, p1) =>
      match chat attempt with
      | .ok content _served _pt _ct =>
        match parseExtractionResponse content with
        | .ok parsed => ⟨.ok (mkResult parsed m), p1.recordSuccess m, 1⟩
        | .error pe =>
          if attempt = 0 then
            let r := extractGo chat tm fuel (attempt + 1) (some (.parseFail pe)) p1
            ⟨r.res, r.pool, r.calls + 1⟩
          else ⟨.error (.parseFail pe), p1, 1⟩
      | .fail status body =>
        if isRetryableModel status then
          let r := extractGo chat tm fuel (attempt + 1) (some (.openRouter status body))
            (p1.recordFailure m (tm attempt))
          ⟨r.res, r.pool, r.calls + 1⟩
        else
          let p2 := p1.recordFailure m (tm attempt)
          if attempt = 0 then
            let r := extractGo chat tm fuel (attempt + 1) (some (.openRouter status body)) p2
            ⟨r.res, r.pool, r.calls + 1⟩
          else ⟨.error (.openRouter status body), p2, 1⟩

/-- `extractDescricao(normalizedText, apiKey, pool)`: at most
`pool.size + 1` attempts starting from attempt 0 with no recorded error. -/
def extractDescricao (chat : Nat → ChatOutcome) (tm : Nat → Nat) (pool : ModelPool) : RunOutcome :=
  extractGo chat tm (pool.size + 1) 0 none pool

/-- The classified error attempt `k` would record, given the call outcome:
the `OpenRouterError` itself, or the parse failure of the returned content
(`none` when the attempt would succeed). -/
def attemptErr (chat : Nat → ChatOutcome) (k : Nat) : Option ExtractErr :=
  match chat k with
  | .fail status body => some (.openRouter status body)
  | .ok content _ _ _ =>
    match parseExtractionResponse content with
    | .ok _ => none
    | .error pe => some (.parseFail pe)

/-- An operation on one breaker, for reasoning about operation sequences. -/
inductive BreakerOp where
  | failOp
  | succOp
deriving DecidableEq, Repr

/-- Apply one timestamped operation to a breaker. -/
def applyOp (b : CircuitBreaker) (q : BreakerOp × Nat) : CircuitBreaker :=
  match q.1 with
  | .failOp => b.recordFailure q.2
  | .succOp => b.recordSuccess

/-- Apply a sequence of timestamped operations, oldest first. -/
def applyOps (b : CircuitBreaker) (l : List (BreakerOp × Nat)) : CircuitBreaker :=
  l.foldl applyOp b

/-- The cooldown duration the source computes for a post-increment fail
count `f`. -/
def cooldownFor (f : Nat) : Nat :=
  min (2 ^ (f - 1) * BASE_COOLDOWN_MS) MAX_COOLDOWN_MS

/-- The spec's description of which `line_items` elements are kept and how:
an element carrying string `descricao`, `quant` and `preco_unit` is kept (in
order), its `medida` retained only when it is a non-empty string; every other
element is dropped.  Stated as a per-element projection, to be compared with
the behaviour of `parseExtractionResponse`. -/
def keptLineItemSpec (x : JValue) : Option LineItem :=
  match x with
  | .obj f =>
    match objGet f "descricao", objGet f "quant", objGet f "preco_unit" with
    | some (.str d), some (.str q), some (.str pu) =>
      some ⟨d,
        (match objGet f "medida" with
         | some (.str mm) => if mm = "" then none else some mm
         | _ => none), q, pu⟩
    | _, _, _ => none
  | _ => none

/-- No two adjacent blank lines: the invariant established by step 3 of the
normalizer. -/
def NoAdjBlank (L : List (List Char)) : Prop :=
  List.Chain' (fun a b => ¬(a = [] ∧ b = [])) L

/-- Adjacent output lines of the merge pass never satisfy `canJoin`: the
stability invariant of step 5. -/
def MergeStable (L : List (List Char)) : Prop :=
  List.Chain' (fun a b => canJoin a b = false) L

/-- The number of leading line breaks of a character list. -/
def leadNL (cs : List Char) : Nat :=
  (cs.takeWhile (fun c => c == '\n')).length

/-!
# Theorems

Helper lemmas come first, then one theorem per claim (with its witness or
counterexample).
-/

/-- C6: `recordFailure()` increments `failCount` by one and sets
`cooldownUntil` to `now + min(30s * 2^(failCount-1), 600s)` with the
post-increment `failCount`; the added cooldown duration never exceeds
600 seconds. -/
theorem recordFailure_backoff_spec (b : CircuitBreaker) (now : Nat) :
    (b.recordFailure now).failCount = b.failCount + 1 ∧
    (b.recordFailure now).cooldownUntil
      = now + min (30000 * 2 ^ ((b.failCount + 1) - 1)) 600000 ∧
    (b.recordFailure now).cooldownUntil ≤ now + 600000 := by
  refine ⟨rfl, ?_, ?_⟩
  · simp [CircuitBreaker.recordFailure, BASE_COOLDOWN_MS, MAX_COOLDOWN_MS, Nat.mul_comm]
  · have h : min (2 ^ (b.failCount + 1 - 1) * BASE_COOLDOWN_MS) MAX_COOLDOWN_MS
        ≤ 600000 := by
      exact le_trans (min_le_right _ _) (by norm_num [MAX_COOLDOWN_MS])
    simpa [CircuitBreaker.recordFailure] using Nat.add_le_add_left h now

/-- `cooldownFor` is monotone in the fail count. -/
theorem cooldownFor_mono {f g : Nat} (h : f ≤ g) : cooldownFor f ≤ cooldownFor g := by
  unfold cooldownFor
  exact min_le_min
    (Nat.mul_le_mul_right _ (Nat.pow_le_pow_right (by norm_num) (Nat.sub_le_sub_right h 1)))
    le_rfl

/-- Invariant of a breaker driven by operations no later than `t`: its
cooldown deadline is at most `t` plus the cooldown its fail count warrants. -/
theorem applyOps_cooldown_inv (t : Nat) :
    ∀ (ops : List (BreakerOp × Nat)) (b : CircuitBreaker),
      b.cooldownUntil ≤ t + cooldownFor b.failCount →
      (∀ q ∈ ops, q.2 ≤ t) →
      (applyOps b ops).cooldownUntil ≤ t + cooldownFor (applyOps b ops).failCount := by
  intro ops
  induction ops with
  | nil => intro b hb _; simpa [applyOps] using hb
  | cons q rest ih =>
    intro b hb hq
    have hqt : q.2 ≤ t := hq q (List.mem_cons_self q rest)
    have hstep : (applyOp b q).cooldownUntil ≤ t + cooldownFor (applyOp b q).failCount := by
      cases hop : q.1 with
      | succOp =>
        simp [applyOp, hop, CircuitBreaker.recordSuccess]
      | failOp =>
        simp only [applyOp, hop, CircuitBreaker.recordFailure]
        exact Nat.add_le_add hqt le_rfl
    have : applyOps b (q :: rest) = applyOps (applyOp b q) rest := rfl
    rw [this]
    exact ih (applyOp b q) hstep (fun r hr => hq r (List.mem_cons_of_mem q hr))

/-- C8: after any operation sequence whose call times do not exceed the next
failure's time `t'`, a further `recordFailure` at `t'` does not decrease
`cooldownUntil` while incrementing `failCount`; and `recordSuccess` resets
both fields to zero in one step. -/
theorem breaker_cooldown_monotone_and_reset (id : String) (t' : Nat)
    (ops : List (BreakerOp × Nat)) (hops : ∀ q ∈ ops, q.2 ≤ t') :
    (applyOps (CircuitBreaker.mk0 id) ops).cooldownUntil
      ≤ ((applyOps (CircuitBreaker.mk0 id) ops).recordFailure t').cooldownUntil ∧
    ((applyOps (CircuitBreaker.mk0 id) ops).recordFailure t').failCount
      = (applyOps (CircuitBreaker.mk0 id) ops).failCount + 1 ∧
    (∀ c : CircuitBreaker, c.recordSuccess.failCount = 0 ∧ c.recordSuccess.cooldownUntil = 0) := by
  refine ⟨?_, rfl, fun c => ⟨rfl, rfl⟩⟩
  have hb : (CircuitBreaker.mk0 id).cooldownUntil
      ≤ t' + cooldownFor (CircuitBreaker.mk0 id).failCount := by
    simp [CircuitBreaker.mk0]
  have hinv := applyOps_cooldown_inv t' ops (CircuitBreaker.mk0 id) hb hops
  calc (applyOps (CircuitBreaker.mk0 id) ops).cooldownUntil
      ≤ t' + cooldownFor (applyOps (CircuitBreaker.mk0 id) ops).failCount := hinv
    _ ≤ t' + cooldownFor ((applyOps (CircuitBreaker.mk0 id) ops).failCount + 1) :=
        Nat.add_le_add_left (cooldownFor_mono (Nat.le_succ _)) t'
    _ = ((applyOps (CircuitBreaker.mk0 id) ops).recordFailure t').cooldownUntil := by
        simp [CircuitBreaker.recordFailure, cooldownFor]

/-- A successful scan returns the first healthy index of the wrapped scan
order starting at offset `i`. -/
theorem scanLoop_some (p : ModelPool) (now : Nat) :
    ∀ (r i idx : Nat), p.scanLoop now i r = some idx →
      ∃ d, d < r ∧ idx = (p.cursor + (i + d)) % p.models.length ∧
        p.healthy now (p.models.getD idx "") = true ∧
        ∀ d', d' < d →
          p.healthy now (p.models.getD ((p.cursor + (i + d')) % p.models.length) "") = false := by
  intro r
  induction r with
  | zero => intro i idx h; simp [ModelPool.scanLoop] at h
  | succ r ih =>
    intro i idx h
    simp only [ModelPool.scanLoop] at h
    by_cases hh : p.healthy now (p.models.getD ((p.cursor + i) % p.models.length) "") = true
    · rw [if_pos hh] at h
      obtain rfl : (p.cursor + i) % p.models.length = idx := Option.some.inj h
      exact ⟨0, Nat.succ_pos r, by simp, hh, by omega⟩
    · rw [if_neg hh] at h
      obtain ⟨d, hdr, hidx, hheal, hfirst⟩ := ih (i + 1) idx h
      refine ⟨d + 1, by omega, by rw [hidx]; ring_nf, hheal, ?_⟩
      intro d' hd'
      cases d' with
      | zero =>
        simpa using eq_false_of_ne_true hh
      | succ e =>
        have := hfirst e (by omega)
        have harr : p.cursor + (i + 1 + e) = p.cursor + (i + (e + 1)) := by ring
        rwa [harr] at this

/-- A failed scan found no healthy model among the `r` examined offsets. -/
theorem scanLoop_none (p : ModelPool) (now : Nat) :
    ∀ (r i : Nat), p.scanLoop now i r = none →
      ∀ d, d < r →
        p.healthy now (p.models.getD ((p.cursor + (i + d)) % p.models.length) "") = false := by
  intro r
  induction r with
  | zero => intro i _ d hd; omega
  | succ r ih =>
    intro i h d hd
    simp only [ModelPool.scanLoop] at h
    by_cases hh : p.healthy now (p.models.getD ((p.cursor + i) % p.models.length) "") = true
    · rw [if_pos hh] at h; cases h
    · rw [if_neg hh] at h
      cases d with
      | zero => simpa using eq_false_of_ne_true hh
      | succ e =>
        have := ih (i + 1) h e (by omega)
        have harr : p.cursor + (i + 1 + e) = p.cursor + (i + (e + 1)) := by ring
        rwa [harr] at this

/-- Every index below `n` is reached by the wrapped scan within `n` steps. -/
theorem rot_surj (c k n : Nat) (hn : 0 < n) (hk : k < n) :
    ∃ d, d < n ∧ (c + d) % n = k := by
  have hdm := Nat.div_add_mod c n
  have hcn : c % n < n := Nat.mod_lt _ hn
  by_cases hle : c % n ≤ k
  · refine ⟨k - c % n, by omega, ?_⟩
    have he : c + (k - c % n) = n * (c / n) + k := by omega
    rw [he, Nat.mul_add_mod, Nat.mod_eq_of_lt hk]
  · refine ⟨n + k - c % n, by omega, ?_⟩
    have he : c + (n + k - c % n) = n * (c / n + 1) + k := by
      have hexp : n * (c / n + 1) = n * (c / n) + n := by ring
      omega
    rw [he, Nat.mul_add_mod, Nat.mod_eq_of_lt hk]

/-- C5: `nextHealthy()` scans the fixed provider list from the cursor with
wrap-around, returns the first healthy identifier and advances the cursor to
just past its position; when no identifier is healthy it returns `none` and
leaves the pool unchanged.  With providers `a`, `b`, `c` all healthy, four
consecutive calls return `a`, `b`, `c`, `a`. -/
theorem nextHealthy_round_robin_spec :
    (∀ (p : ModelPool) (now : Nat) (m : String) (p' : ModelPool),
       p.nextHealthy now = (some m, p') →
       ∃ i, i < p.models.length ∧
         m = p.models.getD ((p.cursor + i) % p.models.length) "" ∧
         p.healthy now m = true ∧
         (∀ j, j < i →
            p.healthy now (p.models.getD ((p.cursor + j) % p.models.length) "") = false) ∧
         p'.models = p.models ∧ p'.breakers = p.breakers ∧
         p'.cursor = ((p.cursor + i) % p.models.length + 1) % p.models.length) ∧
    (∀ (p : ModelPool) (now : Nat) (p' : ModelPool),
       p.nextHealthy now = (none, p') →
       p' = p ∧ ∀ m ∈ p.models, p.healthy now m = false) ∧
    (((ModelPool.mk0 ["a", "b", "c"]).nextHealthy 0).1 = some "a" ∧
     ((((ModelPool.mk0 ["a", "b", "c"]).nextHealthy 0).2.nextHealthy 0)).1 = some "b" ∧
     (((((ModelPool.mk0 ["a", "b", "c"]).nextHealthy 0).2.nextHealthy 0).2.nextHealthy 0)).1
        = some "c" ∧
     ((((((ModelPool.mk0 ["a", "b", "c"]).nextHealthy 0).2.nextHealthy 0).2.nextHealthy
         0).2.nextHealthy 0)).1 = some "a") := by
  refine ⟨?_, ?_, rfl, rfl, rfl, rfl⟩
  · intro p now m p' h
    unfold ModelPool.nextHealthy at h
    cases hscan : p.scanLoop now 0 p.models.length with
    | none => rw [hscan] at h; cases h
    | some idx =>
      rw [hscan] at h
      obtain ⟨hm, hp'⟩ := Prod.mk.injEq .. ▸ h
      obtain ⟨d, hdn, hidx, hheal, hfirst⟩ := scanLoop_some p now p.models.length 0 idx hscan
      simp only [Nat.zero_add] at hidx hfirst
      refine ⟨d, hdn, ?_, ?_, ?_, ?_, ?_, ?_⟩
      · rw [← Option.some.inj hm, hidx]
      · rw [← Option.some.inj hm]; exact hheal
      · intro j hj; exact hfirst j hj
      · rw [← hp']
      · rw [← hp']
      · rw [← hp']; show (idx + 1) % p.models.length = _; rw [hidx]
  · intro p now p' h
    unfold ModelPool.nextHealthy at h
    cases hscan : p.scanLoop now 0 p.models.length with
    | some idx => rw [hscan] at h; cases h
    | none =>
      rw [hscan] at h
      obtain ⟨-, hp'⟩ := Prod.mk.injEq .. ▸ h
      refine ⟨hp'.symm, ?_⟩
      intro m hm
      obtain ⟨⟨k, hk⟩, rfl⟩ := List.mem_iff_get.mp hm
      have hn : 0 < p.models.length := by omega
      obtain ⟨d, hdn, hrot⟩ := rot_surj p.cursor k p.models.length hn hk
      have hu := scanLoop_none p now p.models.length 0 hscan d hdn
      simp only [Nat.zero_add] at hu
      rw [hrot] at hu
      have hgd : p.models.getD k "" = p.models.get ⟨k, hk⟩ := by
        rw [List.getD_eq_getElem?_getD, List.getElem?_eq_getElem hk]
        rfl
      rwa [hgd] at hu

/-- Witness for C5: a pool whose single provider has just failed returns
`none` and reports every provider unhealthy. -/
theorem nextHealthy_round_robin_spec_witness :
    ((ModelPool.mk0 ["a"]).recordFailure "a" 0).nextHealthy 0
        = (none, (ModelPool.mk0 ["a"]).recordFailure "a" 0) ∧
    (∀ m ∈ ((ModelPool.mk0 ["a"]).recordFailure "a" 0).models,
       ((ModelPool.mk0 ["a"]).recordFailure "a" 0).healthy 0 m = false) :=
  ⟨rfl,
   (nextHealthy_round_robin_spec.2.1 ((ModelPool.mk0 ["a"]).recordFailure "a" 0) 0
     ((ModelPool.mk0 ["a"]).recordFailure "a" 0) rfl).2⟩

/-- Evaluation of an association-list lookup on a cons cell. -/
theorem lookup_cons_eval (a k : String) (v : CircuitBreaker)
    (l : List (String × CircuitBreaker)) :
    List.lookup a ((k, v) :: l) = if k = a then some v else List.lookup a l := by
  cases hkb : a == k with
  | true =>
    simp only [List.lookup, hkb]
    rw [if_pos (eq_of_beq hkb).symm]
  | false =>
    simp only [List.lookup, hkb]
    rw [if_neg (by simpa using (beq_eq_false_iff_ne.mp hkb).symm)]

/-- Recording a failure for `m` updates exactly `m`'s entry of the breaker
association list. -/
theorem lookup_map_recordFailure (m : String) (t : Nat) :
    ∀ l : List (String × CircuitBreaker),
      List.lookup m (l.map (fun e => if e.1 = m then (e.1, e.2.recordFailure t) else e))
        = (List.lookup m l).map (fun b => b.recordFailure t) := by
  intro l
  induction l with
  | nil => rfl
  | cons e rest ih =>
    obtain ⟨k, v⟩ := e
    by_cases he : k = m
    · subst he
      simp [lookup_cons_eval, ih]
    · simp [lookup_cons_eval, he, ih]

/-- C1: when the provider call of an attempt fails with a fatal
(non-429/non-5xx) provider error, the failure is recorded on that provider's
breaker, and the loop continues (against the shrunken budget) only when the
attempt index is 0; on any later attempt the error propagates and the loop
stops. -/
theorem extractDescricao_fatal_error_step
    (chat : Nat → ChatOutcome) (tm : Nat → Nat) (fuel attempt : Nat)
    (last : Option ExtractErr) (p p1 : ModelPool) (m : String) (status : Nat) (body : String)
    (hnext : p.nextHealthy (tm attempt) = (some m, p1))
    (hchat : chat attempt = .fail status body)
    (hfatal : isRetryableModel status = false) :
    (extractGo chat tm (fuel + 1) attempt last p =
      if attempt = 0 then
        ⟨(extractGo chat tm fuel 1 (some (.openRouter status body))
            (p1.recordFailure m (tm attempt))).res,
         (extractGo chat tm fuel 1 (some (.openRouter status body))
            (p1.recordFailure m (tm attempt))).pool,
         (extractGo chat tm fuel 1 (some (.openRouter status body))
            (p1.recordFailure m (tm attempt))).calls + 1⟩
      else ⟨.error (.openRouter status body), p1.recordFailure m (tm attempt), 1⟩) ∧
    (∀ b, p1.breakers.lookup m = some b →
       (p1.recordFailure m (tm attempt)).breakers.lookup m
         = some (b.recordFailure (tm attempt))) := by
  constructor
  · by_cases h0 : attempt = 0
    · subst h0
      simp only [extractGo, hnext, hchat, hfatal, Bool.false_eq_true, if_false, if_pos rfl,
        if_true]
    · rw [if_neg h0]
      simp only [extractGo, hnext, hchat, hfatal, Bool.false_eq_true, if_false, if_neg h0]
  · intro b hb
    show List.lookup m (p1.breakers.map
      (fun e => if e.1 = m then (e.1, e.2.recordFailure (tm attempt)) else e)) = _
    rw [lookup_map_recordFailure m (tm attempt) p1.breakers, hb]
    rfl

/-- Witness for C1: a fatal 400 on attempt 1 stops the loop with the error
and a penalized breaker. -/
theorem extractDescricao_fatal_error_step_witness :
    extractGo (fun _ => .fail 400 "bad") (fun _ => 0) 1 1 none (ModelPool.mk0 ["a", "b"])
      = ⟨.error (.openRouter 400 "bad"),
         ({ ModelPool.mk0 ["a", "b"] with cursor := 1 : ModelPool }).recordFailure "a" 0, 1⟩ := by
  have h := (extractDescricao_fatal_error_step (fun _ => .fail 400 "bad") (fun _ => 0) 0 1 none
    (ModelPool.mk0 ["a", "b"]) { ModelPool.mk0 ["a", "b"] with cursor := 1 } "a" 400 "bad"
    rfl rfl rfl).1
  simpa using h

/-- C10: on a validated success, the returned record's `model_used` is the
identifier the request was made under (and the breaker credited), for every
served-model identifier the response may carry. -/
theorem extractDescricao_model_used_requested
    (chat : Nat → ChatOutcome) (tm : Nat → Nat) (fuel attempt : Nat)
    (last : Option ExtractErr) (p p1 : ModelPool) (m content served : String)
    (pt ct : Nat) (parsed : ParsedJSON)
    (hnext : p.nextHealthy (tm attempt) = (some m, p1))
    (hchat : chat attempt = .ok content served pt ct)
    (hparse : parseExtractionResponse content = .ok parsed) :
    extractGo chat tm (fuel + 1) attempt last p
      = ⟨.ok (mkResult parsed m), p1.recordSuccess m, 1⟩ ∧
    (mkResult parsed m).model_used = m := by
  constructor
  · simp only [extractGo, hnext, hchat, hparse]
  · rfl

/-- Witness for C10: the served identifier differs from the requested one,
`model_used` still records the requested identifier. -/
theorem extractDescricao_model_used_requested_witness :
    extractGo (fun _ => .ok "\x7b\"descricao\":\"abc\"\x7d" "other-model" 3 4) (fun _ => 0)
        1 0 none (ModelPool.mk0 ["a"])
      = ⟨.ok (mkResult ⟨"abc", 1 / 2, [], []⟩ "a"),
         ({ ModelPool.mk0 ["a"] with cursor := 0 : ModelPool }).recordSuccess "a", 1⟩ ∧
    (mkResult ⟨"abc", 1 / 2, [], []⟩ "a").model_used = "a" :=
  extractDescricao_model_used_requested (fun _ => .ok "\x7b\"descricao\":\"abc\"\x7d" "other-model" 3 4)
    (fun _ => 0) 0 0 none (ModelPool.mk0 ["a"]) { ModelPool.mk0 ["a"] with cursor := 0 }
    "a" "\x7b\"descricao\":\"abc\"\x7d" "other-model" 3 4 ⟨"abc", 1 / 2, [], []⟩ rfl rfl (by rfl)

/-- Unfolding: zero fuel surfaces the last recorded error. -/
theorem extractGo_zero (chat : Nat → ChatOutcome) (tm : Nat → Nat) (attempt : Nat)
    (last : Option ExtractErr) (p : ModelPool) :
    extractGo chat tm 0 attempt last p = ⟨.error (last.getD .exhausted), p, 0⟩ := rfl

/-- Unfolding: no healthy provider fails immediately without a call. -/
theorem extractGo_cooldown (chat : Nat → ChatOutcome) (tm : Nat → Nat)
    (fuel attempt : Nat) (last : Option ExtractErr) (p p1 : ModelPool)
    (hnext : p.nextHealthy (tm attempt) = (none, p1)) :
    extractGo chat tm (fuel + 1) attempt last p = ⟨.error .allCooldown, p1, 0⟩ := by
  simp only [extractGo, hnext]

/-- Unfolding: a validated response returns at once. -/
theorem extractGo_success (chat : Nat → ChatOutcome) (tm : Nat → Nat)
    (fuel attempt : Nat) (last : Option ExtractErr) (p p1 : ModelPool)
    (m content served : String) (pt ct : Nat) (parsed : ParsedJSON)
    (hnext : p.nextHealthy (tm attempt) = (some m, p1))
    (hchat : chat attempt = .ok content served pt ct)
    (hparse : parseExtractionResponse content = .ok parsed) :
    extractGo chat tm (fuel + 1) attempt last p
      = ⟨.ok (mkResult parsed m), p1.recordSuccess m, 1⟩ := by
  simp only [extractGo, hnext, hchat, hparse]

/-- Unfolding: a response failing validation retries once from attempt 0
without penalizing the breaker, otherwise propagates. -/
theorem extractGo_parse_err (chat : Nat → ChatOutcome) (tm : Nat → Nat)
    (fuel attempt : Nat) (last : Option ExtractErr) (p p1 : ModelPool)
    (m content served : String) (pt ct : Nat) (pe : ParseErr)
    (hnext : p.nextHealthy (tm attempt) = (some m, p1))
    (hchat : chat attempt = .ok content served pt ct)
    (hparse : parseExtractionResponse content = .error pe) :
    extractGo chat tm (fuel + 1) attempt last p
      = if attempt = 0 then
          ⟨(extractGo chat tm fuel (attempt + 1) (some (.parseFail pe)) p1).res,
           (extractGo chat tm fuel (attempt + 1) (some (.parseFail pe)) p1).pool,
           (extractGo chat tm fuel (attempt + 1) (some (.parseFail pe)) p1).calls + 1⟩
        else ⟨.error (.parseFail pe), p1, 1⟩ := by
  simp only [extractGo, hnext, hchat, hparse]

/-- Unfolding: a transient provider failure penalizes the breaker and
continues. -/
theorem extractGo_fail_retry (chat : Nat → ChatOutcome) (tm : Nat → Nat)
    (fuel attempt : Nat) (last : Option ExtractErr) (p p1 : ModelPool)
    (m : String) (status : Nat) (body : String)
    (hnext : p.nextHealthy (tm attempt) = (some m, p1))
    (hchat : chat attempt = .fail status body)
    (hr : isRetryableModel status = true) :
    extractGo chat tm (fuel + 1) attempt last p
      = ⟨(extractGo chat tm fuel (attempt + 1) (some (.openRouter status body))
            (p1.recordFailure m (tm attempt))).res,
         (extractGo chat tm fuel (attempt + 1) (some (.openRouter status body))
            (p1.recordFailure m (tm attempt))).pool,
         (extractGo chat tm fuel (attempt + 1) (some (.openRouter status body))
            (p1.recordFailure m (tm attempt))).calls + 1⟩ := by
  simp only [extractGo, hnext, hchat, hr, if_pos rfl, if_true]

/-- Unfolding: a fatal provider failure penalizes the breaker and continues
only from attempt 0. -/
theorem extractGo_fail_fatal (chat : Nat → ChatOutcome) (tm : Nat → Nat)
    (fuel attempt : Nat) (last : Option ExtractErr) (p p1 : ModelPool)
    (m : String) (status : Nat) (body : String)
    (hnext : p.nextHealthy (tm attempt) = (some m, p1))
    (hchat : chat attempt = .fail status body)
    (hr : isRetryableModel status = false) :
    extractGo chat tm (fuel + 1) attempt last p
      = if attempt = 0 then
          ⟨(extractGo chat tm fuel (attempt + 1) (some (.openRouter status body))
              (p1.recordFailure m (tm attempt))).res,
           (extractGo chat tm fuel (attempt + 1) (some (.openRouter status body))
              (p1.recordFailure m (tm attempt))).pool,
           (extractGo chat tm fuel (attempt + 1) (some (.openRouter status body))
              (p1.recordFailure m (tm attempt))).calls + 1⟩
        else ⟨.error (.openRouter status body), p1.recordFailure m (tm attempt), 1⟩ := by
  simp only [extractGo, hnext, hchat, hr, Bool.false_eq_true, if_false]

/-- The attempt loop makes at most `fuel` provider calls. -/
theorem extractGo_calls_le (chat : Nat → ChatOutcome) (tm : Nat → Nat) :
    ∀ (fuel attempt : Nat) (last : Option ExtractErr) (p : ModelPool),
      (extractGo chat tm fuel attempt last p).calls ≤ fuel := by
  intro fuel
  induction fuel with
  | zero => intro attempt last p; rw [extractGo_zero]
  | succ f ih =>
    intro attempt last p
    rcases hnext : p.nextHealthy (tm attempt) with ⟨o, p1⟩
    cases o with
    | none =>
      rw [extractGo_cooldown chat tm f attempt last p p1 hnext]
      exact Nat.zero_le _
    | some m =>
      cases hchat : chat attempt with
      | ok content served pt ct =>
        cases hparse : parseExtractionResponse content with
        | ok parsed =>
          rw [extractGo_success chat tm f attempt last p p1 m content served pt ct parsed
            hnext hchat hparse]
          exact Nat.succ_le_succ (Nat.zero_le f)
        | error pe =>
          rw [extractGo_parse_err chat tm f attempt last p p1 m content served pt ct pe
            hnext hchat hparse]
          by_cases h0 : attempt = 0
          · rw [if_pos h0]
            exact Nat.succ_le_succ (ih (attempt + 1) _ _)
          · rw [if_neg h0]
            exact Nat.succ_le_succ (Nat.zero_le f)
      | fail status body =>
        by_cases hr : isRetryableModel status = true
        · rw [extractGo_fail_retry chat tm f attempt last p p1 m status body hnext hchat hr]
          exact Nat.succ_le_succ (ih (attempt + 1) _ _)
        · rw [extractGo_fail_fatal chat tm f attempt last p p1 m status body hnext hchat
            (Bool.not_eq_true _ ▸ hr)]
          by_cases h0 : attempt = 0
          · rw [if_pos h0]
            exact Nat.succ_le_succ (ih (attempt + 1) _ _)
          · rw [if_neg h0]
            exact Nat.succ_le_succ (Nat.zero_le f)

/-- When the whole budget was spent and the loop still failed, the surfaced
error is the one the final attempt recorded. -/
theorem extractGo_err_last (chat : Nat → ChatOutcome) (tm : Nat → Nat) :
    ∀ (fuel attempt : Nat) (last : Option ExtractErr) (p : ModelPool) (e : ExtractErr),
      (extractGo chat tm fuel attempt last p).res = .error e →
      (extractGo chat tm fuel attempt last p).calls = fuel →
      (fuel = 0 ∧ (last = some e ∨ (last = none ∧ e = .exhausted))) ∨
      (1 ≤ fuel ∧ attemptErr chat (attempt + fuel - 1) = some e) := by
  intro fuel
  induction fuel with
  | zero =>
    intro attempt last p e hres _
    rw [extractGo_zero] at hres
    cases last with
    | some l => exact Or.inl ⟨rfl, Or.inl (congrArg some (Except.error.inj hres))⟩
    | none => exact Or.inl ⟨rfl, Or.inr ⟨rfl, (Except.error.inj hres).symm⟩⟩
  | succ f ih =>
    intro attempt last p e hres hcalls
    rcases hnext : p.nextHealthy (tm attempt) with ⟨o, p1⟩
    cases o with
    | none =>
      rw [extractGo_cooldown chat tm f attempt last p p1 hnext] at hcalls
      cases hcalls
    | some m =>
      cases hchat : chat attempt with
      | ok content served pt ct =>
        cases hparse : parseExtractionResponse content with
        | ok parsed =>
          rw [extractGo_success chat tm f attempt last p p1 m content served pt ct parsed
            hnext hchat hparse] at hres
          cases hres
        | error pe =>
          rw [extractGo_parse_err chat tm f attempt last p p1 m content served pt ct pe
            hnext hchat hparse] at hres hcalls
          by_cases h0 : attempt = 0
          · rw [if_pos h0] at hres hcalls
            simp only at hres hcalls
            have hc : (extractGo chat tm f (attempt + 1) (some (.parseFail pe)) p1).calls = f := by
              omega
            rcases ih (attempt + 1) (some (.parseFail pe)) p1 e hres hc with
              ⟨hf0, hl⟩ | ⟨hf1, ha⟩
            · subst hf0
              rcases hl with hl | ⟨hl, _⟩
              · refine Or.inr ⟨by omega, ?_⟩
                have he : e = .parseFail pe := (Option.some.inj hl).symm
                subst he
                simp [attemptErr, hchat, hparse]
              · cases hl
            · refine Or.inr ⟨by omega, ?_⟩
              have harith : attempt + 1 + f - 1 = attempt + (f + 1) - 1 := by omega
              rwa [harith] at ha
          · rw [if_neg h0] at hres hcalls
            simp only at hres hcalls
            have hf : f = 0 := by omega
            subst hf
            refine Or.inr ⟨le_refl 1, ?_⟩
            have he : e = .parseFail pe := (Except.error.inj hres).symm
            subst he
            simp [attemptErr, hchat, hparse]
      | fail status body =>
        by_cases hr : isRetryableModel status = true
        · rw [extractGo_fail_retry chat tm f attempt last p p1 m status body hnext hchat hr]
            at hres hcalls
          simp only at hres hcalls
          have hc : (extractGo chat tm f (attempt + 1) (some (.openRouter status body))
              (p1.recordFailure m (tm attempt))).calls = f := by
            omega
          rcases ih (attempt + 1) (some (.openRouter status body)) _ e hres hc with
            ⟨hf0, hl⟩ | ⟨hf1, ha⟩
          · subst hf0
            rcases hl with hl | ⟨hl, _⟩
            · refine Or.inr ⟨by omega, ?_⟩
              have he : e = .openRouter status body := (Option.some.inj hl).symm
              subst he
              simp [attemptErr, hchat]
            · cases hl
          · refine Or.inr ⟨by omega, ?_⟩
            have harith : attempt + 1 + f - 1 = attempt + (f + 1) - 1 := by omega
            rwa [harith] at ha
        · rw [extractGo_fail_fatal chat tm f attempt last p p1 m status body hnext hchat
            (Bool.not_eq_true _ ▸ hr)] at hres hcalls
          by_cases h0 : attempt = 0
          · rw [if_pos h0] at hres hcalls
            simp only at hres hcalls
            have hc : (extractGo chat tm f (attempt + 1) (some (.openRouter status body))
                (p1.recordFailure m (tm attempt))).calls = f := by
              omega
            rcases ih (attempt + 1) (some (.openRouter status body)) _ e hres hc with
              ⟨hf0, hl⟩ | ⟨hf1, ha⟩
            · subst hf0
              rcases hl with hl | ⟨hl, _⟩
              · refine Or.inr ⟨by omega, ?_⟩
                have he : e = .openRouter status body := (Option.some.inj hl).symm
                subst he
                simp [attemptErr, hchat]
              · cases hl
            · refine Or.inr ⟨by omega, ?_⟩
              have harith : attempt + 1 + f - 1 = attempt + (f + 1) - 1 := by omega
              rwa [harith] at ha
          · rw [if_neg h0] at hres hcalls
            simp only at hres hcalls
            have hf : f = 0 := by omega
            subst hf
            refine Or.inr ⟨le_refl 1, ?_⟩
            have he : e = .openRouter status body := (Except.error.inj hres).symm
            subst he
            simp [attemptErr, hchat]

/-- A returned success comes from a provider call whose content passed
validation. -/
theorem extractGo_ok_real (chat : Nat → ChatOutcome) (tm : Nat → Nat) :
    ∀ (fuel attempt : Nat) (last : Option ExtractErr) (p : ModelPool) (v : ExtractionResult),
      (extractGo chat tm fuel attempt last p).res = .ok v →
      ∃ k, attempt ≤ k ∧ k < attempt + fuel ∧
        ∃ content served pt ct parsed m,
          chat k = .ok content served pt ct ∧
          parseExtractionResponse content = .ok parsed ∧ v = mkResult parsed m := by
  intro fuel
  induction fuel with
  | zero =>
    intro attempt last p v hres
    rw [extractGo_zero] at hres
    cases hres
  | succ f ih =>
    intro attempt last p v hres
    rcases hnext : p.nextHealthy (tm attempt) with ⟨o, p1⟩
    cases o with
    | none =>
      rw [extractGo_cooldown chat tm f attempt last p p1 hnext] at hres
      cases hres
    | some m =>
      cases hchat : chat attempt with
      | ok content served pt ct =>
        cases hparse : parseExtractionResponse content with
        | ok parsed =>
          rw [extractGo_success chat tm f attempt last p p1 m content served pt ct parsed
            hnext hchat hparse] at hres
          refine ⟨attempt, le_refl _, by omega,
            content, served, pt, ct, parsed, m, hchat, hparse, ?_⟩
          exact (Except.ok.inj hres).symm
        | error pe =>
          rw [extractGo_parse_err chat tm f attempt last p p1 m content served pt ct pe
            hnext hchat hparse] at hres
          by_cases h0 : attempt = 0
          · rw [if_pos h0] at hres
            simp only at hres
            obtain ⟨k, hk1, hk2, hrest⟩ := ih (attempt + 1) _ p1 v hres
            exact ⟨k, by omega, by omega, hrest⟩
          · rw [if_neg h0] at hres
            cases hres
      | fail status body =>
        by_cases hr : isRetryableModel status = true
        · rw [extractGo_fail_retry chat tm f attempt last p p1 m status body hnext hchat hr]
            at hres
          simp only at hres
          obtain ⟨k, hk1, hk2, hrest⟩ := ih (attempt + 1) _ _ v hres
          exact ⟨k, by omega, by omega, hrest⟩
        · rw [extractGo_fail_fatal chat tm f attempt last p p1 m status body hnext hchat
            (Bool.not_eq_true _ ▸ hr)] at hres
          by_cases h0 : attempt = 0
          · rw [if_pos h0] at hres
            simp only at hres
            obtain ⟨k, hk1, hk2, hrest⟩ := ih (attempt + 1) _ _ v hres
            exact ⟨k, by omega, by omega, hrest⟩
          · rw [if_neg h0] at hres
            cases hres

/-- C7: an `extractDescricao` invocation makes at most `poolSize + 1`
provider calls; when the full budget was spent and the run still failed, the
propagated error is the one recorded by the final attempt; and a returned
success always comes from a provider response that passed validation — no
partial or silent success. -/
theorem extractDescricao_attempt_budget (chat : Nat → ChatOutcome) (tm : Nat → Nat)
    (p : ModelPool) :
    (extractDescricao chat tm p).calls ≤ p.size + 1 ∧
    (∀ e, (extractDescricao chat tm p).res = .error e →
       (extractDescricao chat tm p).calls = p.size + 1 →
       attemptErr chat p.size = some e) ∧
    (∀ v, (extractDescricao chat tm p).res = .ok v →
       ∃ k, k < p.size + 1 ∧
         ∃ content served pt ct parsed m,
           chat k = .ok content served pt ct ∧
           parseExtractionResponse content = .ok parsed ∧ v = mkResult parsed m) := by
  refine ⟨extractGo_calls_le chat tm (p.size + 1) 0 none p, ?_, ?_⟩
  · intro e hres hcalls
    rcases extractGo_err_last chat tm (p.size + 1) 0 none p e hres hcalls with
      ⟨hf0, _⟩ | ⟨_, ha⟩
    · omega
    · simpa using ha
  · intro v hres
    obtain ⟨k, _, hk2, hrest⟩ := extractGo_ok_real chat tm (p.size + 1) 0 none p v hres
    exact ⟨k, by omega, hrest⟩

/-- Witness for C7: one provider repeatedly rate-limited; the run spends both
attempts and surfaces the final attempt's error. -/
theorem extractDescricao_attempt_budget_witness :
    (extractDescricao (fun _ => .fail 429 "rl") (fun k => k * 1000000)
        (ModelPool.mk0 ["a"])).calls ≤ (ModelPool.mk0 ["a"]).size + 1 ∧
    attemptErr (fun _ => .fail 429 "rl") (ModelPool.mk0 ["a"]).size
      = some (.openRouter 429 "rl") :=
  ⟨(extractDescricao_attempt_budget (fun _ => .fail 429 "rl") (fun k => k * 1000000)
      (ModelPool.mk0 ["a"])).1,
   (extractDescricao_attempt_budget (fun _ => .fail 429 "rl") (fun k => k * 1000000)
      (ModelPool.mk0 ["a"])).2.1 (.openRouter 429 "rl") rfl rfl⟩

/-- Witness for C8 at a concrete operation sequence. -/
theorem breaker_cooldown_monotone_and_reset_witness :
    (∀ q ∈ [(BreakerOp.failOp, 5), (BreakerOp.failOp, 7)], q.2 ≤ 10) ∧
    (applyOps (CircuitBreaker.mk0 "m") [(BreakerOp.failOp, 5), (BreakerOp.failOp, 7)]).cooldownUntil
      ≤ ((applyOps (CircuitBreaker.mk0 "m")
          [(BreakerOp.failOp, 5), (BreakerOp.failOp, 7)]).recordFailure 10).cooldownUntil :=
  ⟨by decide,
   (breaker_cooldown_monotone_and_reset "m" 10
     [(BreakerOp.failOp, 5), (BreakerOp.failOp, 7)] (by decide)).1⟩

/-- A non-null element is processed without a `TypeError`, yielding exactly
the spec's per-element projection. -/
theorem lineItemOf_not_null (x : JValue) (hx : x ≠ .null) :
    lineItemOf x = .ok (keptLineItemSpec x) := by
  cases x with
  | null => exact absurd rfl hx
  | bool b => rfl
  | num q => rfl
  | str s => rfl
  | arr xs => rfl
  | obj f =>
    simp only [lineItemOf, keptLineItemSpec]
    cases h1 : objGet f "descricao" with
    | none => rfl
    | some v1 =>
      cases v1 with
      | str d =>
        cases h2 : objGet f "quant" with
        | none => rfl
        | some v2 =>
          cases v2 with
          | str q =>
            cases h3 : objGet f "preco_unit" with
            | none => rfl
            | some v3 =>
              cases v3 with
              | str pu =>
                cases h4 : objGet f "medida" with
                | none => rfl
                | some v4 => cases v4 <;> rfl
              | null => rfl
              | bool b => rfl
              | num q2 => rfl
              | arr a => rfl
              | obj o => rfl
          | null => rfl
          | bool b => rfl
          | num q2 => rfl
          | arr a => rfl
          | obj o => rfl
      | null => rfl
      | bool b => rfl
      | num q2 => rfl
      | arr a => rfl
      | obj o => rfl

/-- On a null-free array the `line_items` pass keeps exactly the spec's
projection of each element, in order. -/
theorem collectItems_no_null :
    ∀ xs : List JValue, (∀ x ∈ xs, x ≠ .null) →
      collectItems xs = .ok (xs.filterMap keptLineItemSpec) := by
  intro xs
  induction xs with
  | nil => intro _; rfl
  | cons x rest ih =>
    intro h
    have hx : x ≠ .null := h x (List.mem_cons_self x rest)
    have hrest := ih (fun y hy => h y (List.mem_cons_of_mem x hy))
    simp only [collectItems, lineItemOf_not_null x hx, List.filterMap_cons]
    cases hk : keptLineItemSpec x with
    | none => exact hrest
    | some it =>
      rw [hrest]
      rfl

/-- Counterexample to C3 as stated: a payload that is a JSON object with
non-empty `descricao` and an array `line_items` containing `null` does not
succeed — property access on the `null` element raises a `TypeError`. -/
theorem parseExtractionResponse_null_line_item :
    parseExtractionResponse "\x7b\"descricao\":\"x\",\"line_items\":[null]\x7d"
      = .error .typeError := by
  rfl

/-- C3 (amended): for a payload parsing as a JSON object with a non-empty
trimmed string `descricao` and an array `line_items` none of whose elements
is `null`, `parseExtractionResponse` succeeds, its `line_items` are exactly
the elements carrying string `descricao`, `quant` and `preco_unit` (in
order, `medida` kept only when a non-empty string), all other elements
dropped silently; a `null` element instead fails the parse with a
`TypeError`. -/
theorem parseExtractionResponse_line_items_filter
    (raw : String) (fields : List (String × JValue)) (d : String) (xs : List JValue)
    (hparse : jsonParse (jsFence raw.data) = some (.obj fields))
    (hd : objGet fields "descricao" = some (.str d))
    (hne : jsTrim d.data ≠ [])
    (hli : objGet fields "line_items" = some (.arr xs))
    (hnull : ∀ x ∈ xs, x ≠ JValue.null) :
    ∃ pj, parseExtractionResponse raw = .ok pj ∧
      pj.line_items = xs.filterMap keptLineItemSpec ∧
      pj.descricao = ⟨jsTrim d.data⟩ := by
  have hpe : parseExtractionResponse raw = validateParsed (.obj fields) := by
    unfold parseExtractionResponse
    dsimp only
    rw [hparse]
  have hval : validateParsed (.obj fields)
      = .ok ⟨⟨jsTrim d.data⟩,
          (match objGet fields "confidence" with
           | some (.num q) => min 1 (max 0 q)
           | _ => 1 / 2),
          (match objGet fields "warnings" with
           | some (.arr ws) => ws.filterMap (fun w => match w with | .str s => some s | _ => none)
           | _ => []),
          xs.filterMap keptLineItemSpec⟩ := by
    unfold validateParsed
    dsimp only [getF]
    rw [hd]
    dsimp only
    rw [if_neg hne]
    rw [hli]
    dsimp only
    rw [collectItems_no_null xs hnull]
  exact ⟨_, hpe.trans hval, rfl, rfl⟩

/-- Witness for C3 at a concrete payload: one well-formed element kept, a
numeric junk element dropped. -/
theorem parseExtractionResponse_line_items_filter_witness :
    (∀ x ∈ [JValue.obj [("descricao", JValue.str "a"), ("quant", JValue.str "1"),
              ("preco_unit", JValue.str "2")], JValue.bool true], x ≠ JValue.null) ∧
    ∃ pj, parseExtractionResponse
        "\x7b\"descricao\":\"x\",\"line_items\":[\x7b\"descricao\":\"a\",\"quant\":\"1\",\"preco_unit\":\"2\"\x7d,true]\x7d"
        = .ok pj ∧
      pj.line_items
        = [JValue.obj [("descricao", JValue.str "a"), ("quant", JValue.str "1"),
             ("preco_unit", JValue.str "2")], JValue.bool true].filterMap keptLineItemSpec ∧
      pj.descricao = ⟨jsTrim "x".data⟩ := by
  constructor
  · intro x hx
    rcases List.mem_cons.mp hx with h | hx2
    · subst h; intro hc; cases hc
    · rcases List.mem_cons.mp hx2 with h | hx3
      · subst h; intro hc; cases hc
      · cases hx3
  · exact parseExtractionResponse_line_items_filter
      "\x7b\"descricao\":\"x\",\"line_items\":[\x7b\"descricao\":\"a\",\"quant\":\"1\",\"preco_unit\":\"2\"\x7d,true]\x7d"
      [("descricao", JValue.str "x"),
       ("line_items", JValue.arr [JValue.obj [("descricao", JValue.str "a"),
          ("quant", JValue.str "1"), ("preco_unit", JValue.str "2")], JValue.bool true])]
      "x"
      [JValue.obj [("descricao", JValue.str "a"), ("quant", JValue.str "1"),
         ("preco_unit", JValue.str "2")], JValue.bool true]
      (by rfl) (by rfl) (by decide)
      (by rfl)
      (by
        intro x hx
        rcases List.mem_cons.mp hx with h | hx2
        · subst h; intro hc; cases hc
        · rcases List.mem_cons.mp hx2 with h | hx3
          · subst h; intro hc; cases hc
          · cases hx3)

/-- `splitNl` always returns at least one piece. -/
theorem splitNl_ne_nil : ∀ s : List Char, splitNl s ≠ [] := by
  intro s
  induction s with
  | nil => simp [splitNl]
  | cons c rest ih =>
    by_cases hc : c = '\n'
    · simp [splitNl, hc]
    · simp only [splitNl, if_neg hc]
      cases h : splitNl rest with
      | nil => simp
      | cons hd tl => simp

/-- Pieces of `splitNl` carry no line break. -/
theorem noNl_of_mem_splitNl : ∀ (s : List Char) (l : List Char), l ∈ splitNl s → '\n' ∉ l := by
  intro s
  induction s with
  | nil =>
    intro l hl
    simp [splitNl] at hl
    simp [hl]
  | cons c rest ih =>
    intro l hl
    by_cases hc : c = '\n'
    · rw [hc] at hl
      simp only [splitNl, if_pos rfl] at hl
      rcases List.mem_cons.mp hl with h | h
      · simp [h]
      · exact ih l h
    · simp only [splitNl, if_neg hc] at hl
      cases h : splitNl rest with
      | nil => exact absurd h (splitNl_ne_nil rest)
      | cons hd tl =>
        rw [h] at hl
        rcases List.mem_cons.mp hl with h1 | h1
        · subst h1
          intro hmem
          rcases List.mem_cons.mp hmem with h2 | h2
          · exact hc h2.symm
          · exact ih hd (h ▸ List.mem_cons_self hd tl) h2
        · exact ih l (h ▸ List.mem_cons_of_mem hd h1)

/-- A break-free string splits into itself. -/
theorem splitNl_noNl : ∀ s : List Char, '\n' ∉ s → splitNl s = [s] := by
  intro s
  induction s with
  | nil => intro _; rfl
  | cons c rest ih =>
    intro h
    have hc : c ≠ '\n' := fun he => h (he ▸ List.mem_cons_self c rest)
    have hrest : '\n' ∉ rest := fun hm => h (List.mem_cons_of_mem c hm)
    simp only [splitNl, if_neg hc, ih hrest]

/-- Splitting a break-free prefix followed by a break. -/
theorem splitNl_append : ∀ (l s : List Char), '\n' ∉ l →
    splitNl (l ++ '\n' :: s) = l :: splitNl s := by
  intro l
  induction l with
  | nil => intro s _; simp [splitNl]
  | cons c l' ih =>
    intro s h
    have hc : c ≠ '\n' := fun he => h (he ▸ List.mem_cons_self c l')
    have hl' : '\n' ∉ l' := fun hm => h (List.mem_cons_of_mem c hm)
    simp only [List.cons_append, splitNl, if_neg hc, List.append_eq]
    rw [ih s hl']

/-- `joinNl` on a cons with non-empty tail. -/
theorem joinNl_cons (l : List Char) (r : List Char) (rest : List (List Char)) :
    joinNl (l :: r :: rest) = l ++ '\n' :: joinNl (r :: rest) := rfl

/-- `splitNl` is a left inverse of `joinNl` on non-empty lists of break-free
pieces. -/
theorem splitNl_joinNl : ∀ L : List (List Char), L ≠ [] → (∀ l ∈ L, '\n' ∉ l) →
    splitNl (joinNl L) = L := by
  intro L
  induction L with
  | nil => intro h; exact absurd rfl h
  | cons l rest ih =>
    intro _ hnl
    cases rest with
    | nil =>
      show splitNl (joinNl [l]) = [l]
      exact splitNl_noNl l (hnl l (List.mem_cons_self l []))
    | cons r rs =>
      rw [joinNl_cons, splitNl_append _ _ (hnl l (List.mem_cons_self l _)),
        ih (by simp) (fun x hx => hnl x (List.mem_cons_of_mem l hx))]

/-- Characters of `replCrlf` output come from the input. -/
theorem mem_replCrlf : ∀ (s : List Char) (c : Char), c ∈ replCrlf s → c ∈ s := by
  intro s
  induction s using replCrlf.induct with
  | case1 => intro c h; simp [replCrlf] at h
  | case2 rest ih =>
    intro c h
    rw [replCrlf.eq_2] at h
    rcases List.mem_cons.mp h with h1 | h1
    · exact List.mem_cons_of_mem _ (h1 ▸ List.mem_cons_self '\n' rest)
    · exact List.mem_cons_of_mem _ (List.mem_cons_of_mem _ (ih c h1))
  | case3 a rest hne ih =>
    intro c h
    rw [replCrlf.eq_3 a rest hne] at h
    rcases List.mem_cons.mp h with h1 | h1
    · exact h1 ▸ List.mem_cons_self a rest
    · exact List.mem_cons_of_mem _ (ih c h1)

/-- `replCrlf` is the identity on carriage-return-free input. -/
theorem replCrlf_id : ∀ s : List Char, '\r' ∉ s → replCrlf s = s := by
  intro s
  induction s using replCrlf.induct with
  | case1 => intro _; rfl
  | case2 rest _ =>
    intro h
    exact absurd (List.mem_cons_self '\r' _) h
  | case3 a rest hne ih =>
    intro h
    rw [replCrlf.eq_3 a rest hne, ih (fun hm => h (List.mem_cons_of_mem a hm))]

/-- Characters of step 1 come from the input or are line breaks. -/
theorem mem_fixLineEndings (s : List Char) (c : Char) (h : c ∈ fixLineEndings s) :
    c ∈ s ∨ c = '\n' := by
  unfold fixLineEndings at h
  rcases List.mem_map.mp h with ⟨a, ha, hc⟩
  by_cases har : a = '\r'
  · right
    rw [← hc, har]
    simp
  · rw [← hc]
    rw [if_neg har]
    exact Or.inl (mem_replCrlf s a ha)

/-- Step 1 removes every carriage return. -/
theorem noCr_fixLineEndings (s : List Char) : '\r' ∉ fixLineEndings s := by
  intro h
  unfold fixLineEndings at h
  rcases List.mem_map.mp h with ⟨a, _, hc⟩
  by_cases har : a = '\r'
  · rw [if_pos har] at hc
    cases hc
  · rw [if_neg har] at hc
    exact har hc

/-- Step 1 is the identity on inputs free of carriage returns. -/
theorem fixLineEndings_id (s : List Char) (h : '\r' ∉ s) : fixLineEndings s = s := by
  unfold fixLineEndings
  rw [replCrlf_id s h]
  have : ∀ c ∈ s, (if c = '\r' then '\n' else c) = c := by
    intro c hc
    rw [if_neg (fun he => h (by rw [← he]; exact hc))]
  calc s.map (fun c => if c = '\r' then '\n' else c) = s.map id := List.map_congr_left this
    _ = s := List.map_id s

/-- Characters survive `jsTrim` only from the input. -/
theorem mem_jsTrim (l : List Char) (c : Char) (h : c ∈ jsTrim l) : c ∈ l := by
  unfold jsTrim at h
  rw [List.mem_reverse] at h
  have h2 := (List.dropWhile_suffix isJsWs).sublist.mem h
  rw [List.mem_reverse] at h2
  exact (List.dropWhile_suffix isJsWs).sublist.mem h2

/-- Lines of the blank-collapse output are input lines or blank. -/
theorem mem_collapseBlanks : ∀ (b : Bool) (L : List (List Char)) (l : List Char),
    l ∈ collapseBlanks b L → l ∈ L ∨ l = [] := by
  intro b L
  induction L generalizing b with
  | nil => intro l h; simp [collapseBlanks] at h
  | cons x rest ih =>
    intro l h
    by_cases hx : x = []
    · rw [hx] at h ⊢
      simp only [collapseBlanks, if_pos rfl] at h
      by_cases hb : b = true
      · rw [if_pos hb] at h
        rcases ih true l h with h1 | h1
        · exact Or.inl (List.mem_cons_of_mem _ h1)
        · exact Or.inr h1
      · rw [if_neg hb] at h
        rcases List.mem_cons.mp h with h1 | h1
        · exact Or.inr h1
        · rcases ih true l h1 with h2 | h2
          · exact Or.inl (List.mem_cons_of_mem _ h2)
          · exact Or.inr h2
    · simp only [collapseBlanks, if_neg hx] at h
      rcases List.mem_cons.mp h with h1 | h1
      · exact Or.inl (h1 ▸ List.mem_cons_self x rest)
      · rcases ih false l h1 with h2 | h2
        · exact Or.inl (List.mem_cons_of_mem _ h2)
        · exact Or.inr h2

/-- Characters of `joinNl` come from a piece or are line breaks. -/
theorem mem_joinNl : ∀ (L : List (List Char)) (c : Char), c ∈ joinNl L →
    (∃ l ∈ L, c ∈ l) ∨ c = '\n' := by
  intro L
  induction L with
  | nil => intro c h; simp [joinNl] at h
  | cons l rest ih =>
    intro c h
    cases rest with
    | nil => exact Or.inl ⟨l, List.mem_cons_self l [], h⟩
    | cons r rs =>
      rw [joinNl_cons] at h
      rcases List.mem_append.mp h with h1 | h1
      · exact Or.inl ⟨l, List.mem_cons_self l _, h1⟩
      · rcases List.mem_cons.mp h1 with h2 | h2
        · exact Or.inr h2
        · rcases ih c h2 with ⟨x, hx, hcx⟩ | h3
          · exact Or.inl ⟨x, List.mem_cons_of_mem l hx, hcx⟩
          · exact Or.inr h3

/-- Characters of `removeSoftHyphen` output come from the input. -/
theorem mem_removeSoftHyphen : ∀ (s : List Char) (c : Char), c ∈ removeSoftHyphen s → c ∈ s := by
  intro s
  induction s using removeSoftHyphen.induct with
  | case1 => intro c h; simp [removeSoftHyphen] at h
  | case2 rest ih =>
    intro c h
    rw [removeSoftHyphen.eq_2] at h
    exact List.mem_cons_of_mem _ (List.mem_cons_of_mem _ (ih c h))
  | case3 a rest hne ih =>
    intro c h
    rw [removeSoftHyphen.eq_3 a rest hne] at h
    rcases List.mem_cons.mp h with h1 | h1
    · exact h1 ▸ List.mem_cons_self a rest
    · exact List.mem_cons_of_mem _ (ih c h1)

/-- The soft-hyphen replace is the identity on hyphen-free input. -/
theorem removeSoftHyphen_id : ∀ s : List Char, '-' ∉ s → removeSoftHyphen s = s := by
  intro s
  induction s using removeSoftHyphen.induct with
  | case1 => intro _; rfl
  | case2 rest _ =>
    intro h
    exact absurd (List.mem_cons_self '-' _) h
  | case3 a rest hne ih =>
    intro h
    rw [removeSoftHyphen.eq_3 a rest hne, ih (fun hm => h (List.mem_cons_of_mem a hm))]

/-- The head surviving a `dropWhile` fails the predicate. -/
theorem head?_dropWhile_false (p : Char → Bool) :
    ∀ (l : List Char) (c : Char), (l.dropWhile p).head? = some c → p c = false := by
  intro l
  induction l with
  | nil => intro c h; simp [List.dropWhile] at h
  | cons a t ih =>
    intro c h
    by_cases hp : p a = true
    · rw [List.dropWhile_cons, if_pos hp] at h
      exact ih c h
    · rw [List.dropWhile_cons, if_neg hp] at h
      rw [Bool.not_eq_true] at hp
      cases h
      exact hp

/-- `dropWhile` is the identity when the head already fails the predicate. -/
theorem dropWhile_eq_self_of_head (p : Char → Bool) (l : List Char)
    (h : ∀ c, l.head? = some c → p c = false) : l.dropWhile p = l := by
  cases l with
  | nil => rfl
  | cons a t =>
    rw [List.dropWhile_cons, if_neg]
    rw [h a rfl]
    simp

/-- `jsTrim` is the identity on lists whose two ends are not whitespace. -/
theorem jsTrim_eq_self (s : List Char)
    (h1 : ∀ c, s.head? = some c → isJsWs c = false)
    (h2 : ∀ c, s.getLast? = some c → isJsWs c = false) : jsTrim s = s := by
  unfold jsTrim
  rw [dropWhile_eq_self_of_head isJsWs s h1]
  rw [dropWhile_eq_self_of_head isJsWs s.reverse
    (fun c hc => h2 c (by rwa [List.head?_reverse] at hc))]
  exact List.reverse_reverse s

/-- The head of a trimmed list is not whitespace. -/
theorem jsTrim_head_ok (s : List Char) :
    ∀ c, (jsTrim s).head? = some c → isJsWs c = false := by
  intro c h
  unfold jsTrim at h
  rw [List.head?_reverse] at h
  rcases hv : (s.dropWhile isJsWs).reverse.dropWhile isJsWs with _ | ⟨d, t⟩
  · rw [hv] at h
    cases h
  · have hvne : (s.dropWhile isJsWs).reverse.dropWhile isJsWs ≠ [] := by
      rw [hv]
      simp
    obtain ⟨pre, hpre⟩ := List.dropWhile_suffix (l := (s.dropWhile isJsWs).reverse) isJsWs
    have hlast : ((s.dropWhile isJsWs).reverse.dropWhile isJsWs).getLast?
        = (s.dropWhile isJsWs).reverse.getLast? := by
      conv_rhs => rw [← hpre]
      exact (List.getLast?_append_of_ne_nil _ hvne).symm
    rw [hlast, List.getLast?_reverse] at h
    exact head?_dropWhile_false isJsWs s c h

/-- The last character of a trimmed list is not whitespace. -/
theorem jsTrim_last_ok (s : List Char) :
    ∀ c, (jsTrim s).getLast? = some c → isJsWs c = false := by
  intro c h
  unfold jsTrim at h
  rw [List.getLast?_reverse] at h
  exact head?_dropWhile_false isJsWs _ c h

/-- Trimming is idempotent. -/
theorem jsTrim_idem (s : List Char) : jsTrim (jsTrim s) = jsTrim s :=
  jsTrim_eq_self (jsTrim s) (jsTrim_head_ok s) (jsTrim_last_ok s)

/-- Joining two trimmed non-blank lines with a single space stays trimmed. -/
theorem jsTrim_join_space (a b : List Char) (ha : jsTrim a = a) (hb : jsTrim b = b)
    (hna : a ≠ []) (hnb : b ≠ []) : jsTrim (a ++ ' ' :: b) = a ++ ' ' :: b := by
  apply jsTrim_eq_self
  · intro c h
    rw [List.head?_append_of_ne_nil _ hna] at h
    apply jsTrim_head_ok a
    rw [ha]
    exact h
  · intro c h
    rw [List.getLast?_append_of_ne_nil _ (by simp : (' ' :: b) ≠ [])] at h
    have hb2 : (' ' :: b).getLast? = b.getLast? := by
      cases b with
      | nil => exact absurd rfl hnb
      | cons x t => exact List.getLast?_cons_cons
    rw [hb2] at h
    apply jsTrim_last_ok b
    rw [hb]
    exact h

/-- A blank pushed by the collapse loop in `prevBlank` state never leads. -/
theorem collapse_true_head : ∀ (L : List (List Char)) (l : List Char),
    (collapseBlanks true L).head? = some l → l ≠ [] := by
  intro L
  induction L with
  | nil => intro l h; simp [collapseBlanks] at h
  | cons x rest ih =>
    intro l h
    by_cases hx : x = []
    · rw [hx] at h
      rw [show collapseBlanks true ([] :: rest) = collapseBlanks true rest from by
        simp [collapseBlanks]] at h
      exact ih l h
    · rw [show collapseBlanks true (x :: rest) = x :: collapseBlanks false rest from by
        simp [collapseBlanks, hx]] at h
      cases h
      exact hx

/-- The collapse pass never leaves two adjacent blank lines. -/
theorem collapse_noAdj : ∀ (L : List (List Char)) (b : Bool),
    NoAdjBlank (collapseBlanks b L) := by
  intro L
  induction L with
  | nil => intro b; simp [collapseBlanks, NoAdjBlank]
  | cons x rest ih =>
    intro b
    by_cases hx : x = []
    · subst hx
      cases b with
      | true =>
        rw [show collapseBlanks true ([] :: rest) = collapseBlanks true rest from by
          simp [collapseBlanks]]
        exact ih true
      | false =>
        rw [show collapseBlanks false ([] :: rest) = [] :: collapseBlanks true rest from by
          simp [collapseBlanks]]
        unfold NoAdjBlank
        rw [List.chain'_cons']
        exact ⟨fun y hy => fun hc => collapse_true_head rest y hy hc.2, ih true⟩
    · rw [show collapseBlanks b (x :: rest) = x :: collapseBlanks false rest from by
        simp [collapseBlanks, hx]]
      unfold NoAdjBlank
      rw [List.chain'_cons']
      exact ⟨fun y _ => fun hc => hx hc.1, ih false⟩

/-- The collapse pass is the identity when there is nothing to collapse. -/
theorem collapse_eq_self : ∀ (L : List (List Char)) (b : Bool), NoAdjBlank L →
    (b = true → ∀ l, L.head? = some l → l ≠ []) → collapseBlanks b L = L := by
  intro L
  induction L with
  | nil => intro b _ _; rfl
  | cons x rest ih =>
    intro b hadj hb
    by_cases hx : x = []
    · subst hx
      cases b with
      | true => exact absurd rfl (hb rfl [] rfl)
      | false =>
        rw [show collapseBlanks false ([] :: rest) = [] :: collapseBlanks true rest from by
          simp [collapseBlanks]]
        have htail : NoAdjBlank rest := List.Chain'.tail hadj
        have hhead : ∀ l, rest.head? = some l → l ≠ [] := by
          intro l hl hc
          exact (List.chain'_cons'.mp hadj).1 l hl ⟨rfl, hc⟩
        rw [ih true htail (fun _ => hhead)]
    · rw [show collapseBlanks b (x :: rest) = x :: collapseBlanks false rest from by
        simp [collapseBlanks, hx]]
      rw [ih false (List.Chain'.tail hadj) (by intro hc; cases hc)]

/-- The collapse pass keeps a non-empty list non-empty. -/
theorem collapse_ne_nil : ∀ L : List (List Char), L ≠ [] → collapseBlanks false L ≠ [] := by
  intro L hL
  cases L with
  | nil => exact absurd rfl hL
  | cons x rest =>
    by_cases hx : x = []
    · simp [collapseBlanks, hx]
    · simp [collapseBlanks, hx]

/-- A line never joins with a blank next line. -/
theorem canJoin_nil_right (a : List Char) : canJoin a [] = false := by
  simp [canJoin]

/-- A blank line never joins forward. -/
theorem canJoin_nil_left (b : List Char) : canJoin [] b = false := by
  simp [canJoin, endsMidWord, endsComma]

/-- A successful join requires a non-blank next line. -/
theorem canJoin_ne_nil {a b : List Char} (h : canJoin a b = true) : b ≠ [] := by
  intro hb
  rw [hb, canJoin_nil_right] at h
  cases h

/-- `canJoin` depends on the next line only through its first character. -/
theorem canJoin_congr (a b b' : List Char) (hb : b ≠ []) (hb' : b' ≠ [])
    (hh : b.head? = b'.head?) : canJoin a b = canJoin a b' := by
  unfold canJoin upperStart
  rw [hh]
  have h1 : b.isEmpty = false := by simp [List.isEmpty_iff, hb]
  have h2 : b'.isEmpty = false := by simp [List.isEmpty_iff, hb']
  rw [h1, h2]

/-- One step of the merge inner loop, stated against the outer loop. -/
theorem mergeGo_cons (cur n : List Char) (rest : List (List Char)) :
    mergeGo cur (n :: rest)
      = if canJoin cur n then mergeGo (cur ++ ' ' :: n) rest
        else cur :: mergeLines (n :: rest) := by
  by_cases h : canJoin cur n = true
  · simp [mergeGo, h]
  · simp only [Bool.not_eq_true] at h
    simp [mergeGo, mergeLines, h]

/-- The first output of the inner loop extends `cur`: it is non-blank and
keeps `cur`'s first character. -/
theorem mergeGo_head : ∀ (L : List (List Char)) (cur : List Char), cur ≠ [] →
    ∃ m t, mergeGo cur L = m :: t ∧ m ≠ [] ∧ m.head? = cur.head? := by
  intro L
  induction L with
  | nil => intro cur h; exact ⟨cur, [], rfl, h, rfl⟩
  | cons n rest ih =>
    intro cur h
    by_cases hj : canJoin cur n = true
    · obtain ⟨m, t, he, hm, hh⟩ := ih (cur ++ ' ' :: n) (by simp)
      refine ⟨m, t, ?_, hm, ?_⟩
      · rw [mergeGo_cons, if_pos hj]
        exact he
      · rw [hh, List.head?_append_of_ne_nil _ h]
    · refine ⟨cur, mergeLines (n :: rest), ?_, h, rfl⟩
      rw [mergeGo_cons, if_neg (by simp [hj])]

/-- The first output line of the merge pass mirrors the first input line:
blank stays blank, non-blank keeps its first character. -/
theorem mergeLines_head : ∀ (l0 : List Char) (rest0 : List (List Char)),
    ∃ m t, mergeLines (l0 :: rest0) = m :: t ∧
      (l0 = [] → m = []) ∧ (l0 ≠ [] → m ≠ [] ∧ m.head? = l0.head?) := by
  intro l0 rest0
  by_cases h : l0 = []
  · subst h
    exact ⟨[], mergeLines rest0, by simp [mergeLines], fun _ => rfl, fun hc => absurd rfl hc⟩
  · obtain ⟨m, t, he, hm, hh⟩ := mergeGo_head rest0 l0 h
    exact ⟨m, t, by simp only [mergeLines, if_neg h]; exact he,
      fun hc => absurd hc h, fun _ => ⟨hm, hh⟩⟩

/-- The merge pass produces at least one line from at least one line. -/
theorem mergeLines_ne_nil (L : List (List Char)) (h : L ≠ []) : mergeLines L ≠ [] := by
  cases L with
  | nil => exact absurd rfl h
  | cons l rest =>
    obtain ⟨m, t, he, _, _⟩ := mergeLines_head l rest
    rw [he]
    simp

/-- Adjacent lines of the merge output never satisfy `canJoin`. -/
theorem merge_stable : ∀ (n : Nat) (L : List (List Char)), L.length ≤ n →
    (∀ cur, cur ≠ [] → MergeStable (mergeGo cur L)) ∧ MergeStable (mergeLines L) := by
  intro n
  induction n with
  | zero =>
    intro L hL
    have h0 : L = [] := List.length_eq_zero.mp (Nat.le_zero.mp hL)
    subst h0
    exact ⟨fun cur _ => by simp [mergeGo, MergeStable], by simp [mergeLines, MergeStable]⟩
  | succ k ih =>
    intro L hL
    constructor
    · intro cur hcur
      cases L with
      | nil => simp [mergeGo, MergeStable]
      | cons nn rest =>
        have hr : rest.length ≤ k := by
          have := hL
          simp only [List.length_cons] at this
          omega
        by_cases hj : canJoin cur nn = true
        · rw [mergeGo_cons, if_pos hj]
          exact (ih rest hr).1 _ (by simp)
        · rw [show mergeGo cur (nn :: rest)
            = cur :: (if nn = [] then [] :: mergeLines rest else mergeGo nn rest) from by
              simp [mergeGo, hj]]
          by_cases hnn : nn = []
          · rw [if_pos hnn]
            unfold MergeStable
            rw [List.chain'_cons']
            refine ⟨fun y hy => ?_, ?_⟩
            · cases hy
              exact canJoin_nil_right cur
            · rw [List.chain'_cons']
              exact ⟨fun y _ => canJoin_nil_left y, (ih rest hr).2⟩
          · rw [if_neg hnn]
            unfold MergeStable
            rw [List.chain'_cons']
            obtain ⟨m, t, he, hm, hh⟩ := mergeGo_head rest nn hnn
            refine ⟨fun y hy => ?_, (ih rest hr).1 nn hnn⟩
            rw [he] at hy
            cases hy
            rw [canJoin_congr cur m nn hm hnn hh]
            simpa using hj
    · cases L with
      | nil => simp [mergeLines, MergeStable]
      | cons l rest =>
        have hr : rest.length ≤ k := by
          have := hL
          simp only [List.length_cons] at this
          omega
        by_cases hl : l = []
        · subst hl
          rw [show mergeLines ([] :: rest) = [] :: mergeLines rest from by simp [mergeLines]]
          unfold MergeStable
          rw [List.chain'_cons']
          exact ⟨fun y _ => canJoin_nil_left y, (ih rest hr).2⟩
        · rw [show mergeLines (l :: rest) = mergeGo l rest from by simp [mergeLines, hl]]
          exact (ih rest hr).1 l hl

/-- The merge pass preserves the no-adjacent-blank invariant. -/
theorem merge_noAdj : ∀ (n : Nat) (L : List (List Char)), L.length ≤ n → NoAdjBlank L →
    (∀ cur, cur ≠ [] → NoAdjBlank (mergeGo cur L)) ∧ NoAdjBlank (mergeLines L) := by
  intro n
  induction n with
  | zero =>
    intro L hL _
    have h0 : L = [] := List.length_eq_zero.mp (Nat.le_zero.mp hL)
    subst h0
    exact ⟨fun cur _ => by simp [mergeGo, NoAdjBlank], by simp [mergeLines, NoAdjBlank]⟩
  | succ k ih =>
    intro L hL hadj
    constructor
    · intro cur hcur
      cases L with
      | nil => simp [mergeGo, NoAdjBlank]
      | cons nn rest =>
        have hr : rest.length ≤ k := by
          have := hL
          simp only [List.length_cons] at this
          omega
        have htail : NoAdjBlank rest := List.Chain'.tail hadj
        by_cases hj : canJoin cur nn = true
        · rw [mergeGo_cons, if_pos hj]
          exact (ih rest hr htail).1 _ (by simp)
        · rw [show mergeGo cur (nn :: rest)
            = cur :: (if nn = [] then [] :: mergeLines rest else mergeGo nn rest) from by
              simp [mergeGo, hj]]
          by_cases hnn : nn = []
          · rw [if_pos hnn]
            unfold NoAdjBlank
            rw [List.chain'_cons']
            refine ⟨fun y hy hc => hcur hc.1, ?_⟩
            rw [List.chain'_cons']
            refine ⟨fun y hy hc => ?_, (ih rest hr htail).2⟩
            cases rest with
            | nil => simp [mergeLines] at hy
            | cons l2 rs2 =>
              obtain ⟨m, t, he, hblank, hnblank⟩ := mergeLines_head l2 rs2
              rw [he] at hy
              cases hy
              have hl2 : l2 ≠ [] := by
                intro hc2
                exact (List.chain'_cons'.mp hadj).1 l2 rfl ⟨hnn, hc2⟩
              exact (hnblank hl2).1 hc.2
          · rw [if_neg hnn]
            unfold NoAdjBlank
            rw [List.chain'_cons']
            exact ⟨fun y hy hc => hcur hc.1, (ih rest hr htail).1 nn hnn⟩
    · cases L with
      | nil => simp [mergeLines, NoAdjBlank]
      | cons l rest =>
        have hr : rest.length ≤ k := by
          have := hL
          simp only [List.length_cons] at this
          omega
        have htail : NoAdjBlank rest := List.Chain'.tail hadj
        by_cases hl : l = []
        · subst hl
          rw [show mergeLines ([] :: rest) = [] :: mergeLines rest from by simp [mergeLines]]
          unfold NoAdjBlank
          rw [List.chain'_cons']
          refine ⟨fun y hy hc => ?_, (ih rest hr htail).2⟩
          cases rest with
          | nil => simp [mergeLines] at hy
          | cons l2 rs2 =>
            obtain ⟨m, t, he, hblank, hnblank⟩ := mergeLines_head l2 rs2
            rw [he] at hy
            cases hy
            have hl2 : l2 ≠ [] := by
              intro hc2
              exact (List.chain'_cons'.mp hadj).1 l2 rfl ⟨rfl, hc2⟩
            exact (hnblank hl2).1 hc.2
        · rw [show mergeLines (l :: rest) = mergeGo l rest from by simp [mergeLines, hl]]
          exact (ih rest hr htail).1 l hl

/-- Characters of merged lines come from the input lines, the running
current line, or are inserted spaces. -/
theorem merge_mem : ∀ (n : Nat) (L : List (List Char)), L.length ≤ n →
    (∀ cur m c, m ∈ mergeGo cur L → c ∈ m → c ∈ cur ∨ (∃ l ∈ L, c ∈ l) ∨ c = ' ') ∧
    (∀ m c, m ∈ mergeLines L → c ∈ m → (∃ l ∈ L, c ∈ l) ∨ c = ' ') := by
  intro n
  induction n with
  | zero =>
    intro L hL
    have h0 : L = [] := List.length_eq_zero.mp (Nat.le_zero.mp hL)
    subst h0
    constructor
    · intro cur m c hm hc
      simp only [mergeGo, List.mem_singleton] at hm
      exact Or.inl (hm ▸ hc)
    · intro m c hm
      simp [mergeLines] at hm
  | succ k ih =>
    intro L hL
    constructor
    · intro cur m c hm hc
      cases L with
      | nil =>
        simp only [mergeGo, List.mem_singleton] at hm
        exact Or.inl (hm ▸ hc)
      | cons nn rest =>
        have hr : rest.length ≤ k := by
          have := hL
          simp only [List.length_cons] at this
          omega
        by_cases hj : canJoin cur nn = true
        · rw [mergeGo_cons, if_pos hj] at hm
          rcases (ih rest hr).1 (cur ++ ' ' :: nn) m c hm hc with h1 | ⟨l, hl, hcl⟩ | h1
          · rcases List.mem_append.mp h1 with h2 | h2
            · exact Or.inl h2
            · rcases List.mem_cons.mp h2 with h3 | h3
              · exact Or.inr (Or.inr h3)
              · exact Or.inr (Or.inl ⟨nn, List.mem_cons_self nn rest, h3⟩)
          · exact Or.inr (Or.inl ⟨l, List.mem_cons_of_mem nn hl, hcl⟩)
          · exact Or.inr (Or.inr h1)
        · rw [show mergeGo cur (nn :: rest)
            = cur :: (if nn = [] then [] :: mergeLines rest else mergeGo nn rest) from by
              simp [mergeGo, hj]] at hm
          rcases List.mem_cons.mp hm with h1 | h1
          · exact Or.inl (h1 ▸ hc)
          · by_cases hnn : nn = []
            · rw [if_pos hnn] at h1
              rcases List.mem_cons.mp h1 with h2 | h2
              · subst h2
                cases hc
              · rcases (ih rest hr).2 m c h2 hc with ⟨l, hl, hcl⟩ | h3
                · exact Or.inr (Or.inl ⟨l, List.mem_cons_of_mem nn hl, hcl⟩)
                · exact Or.inr (Or.inr h3)
            · rw [if_neg hnn] at h1
              rcases (ih rest hr).1 nn m c h1 hc with h2 | ⟨l, hl, hcl⟩ | h2
              · exact Or.inr (Or.inl ⟨nn, List.mem_cons_self nn rest, h2⟩)
              · exact Or.inr (Or.inl ⟨l, List.mem_cons_of_mem nn hl, hcl⟩)
              · exact Or.inr (Or.inr h2)
    · intro m c hm hc
      cases L with
      | nil => simp [mergeLines] at hm
      | cons l rest =>
        have hr : rest.length ≤ k := by
          have := hL
          simp only [List.length_cons] at this
          omega
        by_cases hl : l = []
        · subst hl
          rw [show mergeLines ([] :: rest) = [] :: mergeLines rest from by
            simp [mergeLines]] at hm
          rcases List.mem_cons.mp hm with h1 | h1
          · subst h1
            cases hc
          · rcases (ih rest hr).2 m c h1 hc with ⟨x, hx, hcx⟩ | h2
            · exact Or.inl ⟨x, List.mem_cons_of_mem _ hx, hcx⟩
            · exact Or.inr h2
        · rw [show mergeLines (l :: rest) = mergeGo l rest from by
            simp [mergeLines, hl]] at hm
          rcases (ih rest hr).1 l m c hm hc with h1 | ⟨x, hx, hcx⟩ | h1
          · exact Or.inl ⟨l, List.mem_cons_self l rest, h1⟩
          · exact Or.inl ⟨x, List.mem_cons_of_mem l hx, hcx⟩
          · exact Or.inr h1

/-- Merged lines are trimmed when the input lines are. -/
theorem merge_trimmed : ∀ (n : Nat) (L : List (List Char)), L.length ≤ n →
    (∀ l ∈ L, jsTrim l = l) →
    (∀ cur, cur ≠ [] → jsTrim cur = cur → ∀ m ∈ mergeGo cur L, jsTrim m = m) ∧
    (∀ m ∈ mergeLines L, jsTrim m = m) := by
  intro n
  induction n with
  | zero =>
    intro L hL _
    have h0 : L = [] := List.length_eq_zero.mp (Nat.le_zero.mp hL)
    subst h0
    constructor
    · intro cur _ hcur m hm
      simp only [mergeGo, List.mem_singleton] at hm
      exact hm ▸ hcur
    · intro m hm
      simp [mergeLines] at hm
  | succ k ih =>
    intro L hL htr
    constructor
    · intro cur hcne hcur m hm
      cases L with
      | nil =>
        simp only [mergeGo, List.mem_singleton] at hm
        exact hm ▸ hcur
      | cons nn rest =>
        have hr : rest.length ≤ k := by
          have := hL
          simp only [List.length_cons] at this
          omega
        have htr' : ∀ l ∈ rest, jsTrim l = l :=
          fun l hl => htr l (List.mem_cons_of_mem nn hl)
        by_cases hj : canJoin cur nn = true
        · rw [mergeGo_cons, if_pos hj] at hm
          have hnn : nn ≠ [] := canJoin_ne_nil hj
          have hcur' : jsTrim (cur ++ ' ' :: nn) = cur ++ ' ' :: nn :=
            jsTrim_join_space cur nn hcur (htr nn (List.mem_cons_self nn rest)) hcne hnn
          exact (ih rest hr htr').1 (cur ++ ' ' :: nn) (by simp) hcur' m hm
        · rw [show mergeGo cur (nn :: rest)
            = cur :: (if nn = [] then [] :: mergeLines rest else mergeGo nn rest) from by
              simp [mergeGo, hj]] at hm
          rcases List.mem_cons.mp hm with h1 | h1
          · exact h1 ▸ hcur
          · by_cases hnn : nn = []
            · rw [if_pos hnn] at h1
              rcases List.mem_cons.mp h1 with h2 | h2
              · rw [h2]
                rfl
              · exact (ih rest hr htr').2 m h2
            · rw [if_neg hnn] at h1
              exact (ih rest hr htr').1 nn hnn (htr nn (List.mem_cons_self nn rest)) m h1
    · intro m hm
      cases L with
      | nil => simp [mergeLines] at hm
      | cons l rest =>
        have hr : rest.length ≤ k := by
          have := hL
          simp only [List.length_cons] at this
          omega
        have htr' : ∀ x ∈ rest, jsTrim x = x :=
          fun x hx => htr x (List.mem_cons_of_mem l hx)
        by_cases hl : l = []
        · subst hl
          rw [show mergeLines ([] :: rest) = [] :: mergeLines rest from by
            simp [mergeLines]] at hm
          rcases List.mem_cons.mp hm with h1 | h1
          · rw [h1]
            rfl
          · exact (ih rest hr htr').2 m h1
        · rw [show mergeLines (l :: rest) = mergeGo l rest from by
            simp [mergeLines, hl]] at hm
          exact (ih rest hr htr').1 l hl (htr l (List.mem_cons_self l rest)) m hm

/-- The merge pass leaves a stable line list unchanged. -/
theorem mergeLines_eq_self : ∀ L : List (List Char), MergeStable L → mergeLines L = L := by
  intro L
  induction L with
  | nil => intro _; rfl
  | cons l rest ih =>
    intro h
    by_cases hl : l = []
    · subst hl
      rw [show mergeLines ([] :: rest) = [] :: mergeLines rest from by simp [mergeLines]]
      rw [ih (List.Chain'.tail h)]
    · rw [show mergeLines (l :: rest) = mergeGo l rest from by simp [mergeLines, hl]]
      cases rest with
      | nil => rfl
      | cons r rs =>
        have hr : canJoin l r = false := (List.chain'_cons.mp h).1
        rw [mergeGo_cons, if_neg (by simp [hr])]
        rw [ih (List.Chain'.tail h)]

/-- An infix of a cons is a prefix or an infix of the tail. -/
theorem infix_cons_elim {p t : List Char} {c : Char} (h : p <:+: (c :: t)) :
    p <+: (c :: t) ∨ p <:+: t := by
  obtain ⟨s, u, hsu⟩ := h
  cases s with
  | nil =>
    left
    exact ⟨u, by simpa using hsu⟩
  | cons a s' =>
    right
    have : s' ++ p ++ u = t := by
      have := hsu
      simp only [List.cons_append] at this
      exact (List.cons.injEq .. ▸ this).2
    exact ⟨s', u, this⟩

/-- A run of three line breaks inside an append with a break-free left part
lies in the right part. -/
theorem triple_in_append : ∀ (l m : List Char),
    ['\n', '\n', '\n'] <:+: (l ++ m) → '\n' ∉ l → ['\n', '\n', '\n'] <:+: m := by
  intro l
  induction l with
  | nil => intro m h _; simpa using h
  | cons c l' ih =>
    intro m h hnl
    rw [List.cons_append] at h
    rcases infix_cons_elim h with hpre | hinf
    · obtain ⟨u, hu⟩ := hpre
      have : '\n' = c := by
        have := hu
        simp only [List.cons_append] at this
        exact (List.cons.injEq .. ▸ this).1
      exact absurd (this ▸ List.mem_cons_self c l') hnl
    · exact ih m hinf (fun hm => hnl (List.mem_cons_of_mem c hm))

/-- `leadNL` of a cons beginning with a line break. -/
theorem leadNL_cons_nl (s : List Char) : leadNL ('\n' :: s) = leadNL s + 1 := by
  simp [leadNL, List.takeWhile_cons]

/-- `leadNL` vanishes when the head is not a line break. -/
theorem leadNL_zero_of_head (cs : List Char)
    (h : ∀ c, cs.head? = some c → c ≠ '\n') : leadNL cs = 0 := by
  cases cs with
  | nil => rfl
  | cons c t =>
    have hc : c ≠ '\n' := h c rfl
    simp [leadNL, List.takeWhile_cons, hc]

/-- Two leading line breaks force `leadNL ≥ 2`. -/
theorem leadNL_ge_two {cs : List Char} (h : ['\n', '\n'] <+: cs) : 2 ≤ leadNL cs := by
  obtain ⟨u, hu⟩ := h
  subst hu
  simp [leadNL, List.takeWhile_cons]

/-- The head of a non-empty join is the head of the first piece. -/
theorem joinNl_head (r : List Char) (rs : List (List Char)) (hr : r ≠ []) :
    (joinNl (r :: rs)).head? = r.head? := by
  cases rs with
  | nil => rfl
  | cons r2 rs2 =>
    rw [joinNl_cons]
    exact List.head?_append_of_ne_nil _ hr

/-- Joining break-free lines with no two adjacent blanks yields no run of
three line breaks, and at most one leading break. -/
theorem joinNl_noTriple : ∀ L : List (List Char), (∀ l ∈ L, '\n' ∉ l) → NoAdjBlank L →
    ¬(['\n', '\n', '\n'] <:+: joinNl L) ∧ leadNL (joinNl L) ≤ 1 := by
  intro L
  induction L with
  | nil =>
    intro _ _
    constructor
    · intro h
      simp [joinNl] at h
    · simp [joinNl, leadNL]
  | cons l rest ih =>
    intro hnl hadj
    have hnll : '\n' ∉ l := hnl l (List.mem_cons_self l rest)
    cases rest with
    | nil =>
      constructor
      · intro h
        exact hnll (h.sublist.mem (by simp))
      · exact Nat.le_of_eq ((leadNL_zero_of_head l
          (fun c hc he => hnll (he ▸ List.mem_of_mem_head? hc))).trans rfl) |>.trans (by omega)
    | cons r rs =>
      have hnl' : ∀ x ∈ r :: rs, '\n' ∉ x := fun x hx => hnl x (List.mem_cons_of_mem l hx)
      have hadj' : NoAdjBlank (r :: rs) := List.Chain'.tail hadj
      obtain ⟨ihT, ihL⟩ := ih hnl' hadj'
      rw [joinNl_cons]
      constructor
      · intro h
        have h2 := triple_in_append l _ h hnll
        rcases infix_cons_elim h2 with hpre | hinf
        · obtain ⟨u, hu⟩ := hpre
          have hjr : joinNl (r :: rs) = '\n' :: '\n' :: u := by
            have := hu
            simp only [List.cons_append, List.nil_append] at this
            exact ((List.cons.injEq .. ▸ this).2).symm
          have : 2 ≤ leadNL (joinNl (r :: rs)) := leadNL_ge_two ⟨u, by simp [hjr]⟩
          omega
        · exact ihT hinf
      · by_cases hl : l = []
        · subst hl
          rw [List.nil_append, leadNL_cons_nl]
          have hr : r ≠ [] := by
            intro hc
            exact (List.chain'_cons'.mp hadj).1 r rfl ⟨rfl, hc⟩
          have h0 : leadNL (joinNl (r :: rs)) = 0 := by
            apply leadNL_zero_of_head
            intro c hc he
            rw [joinNl_head r rs hr] at hc
            exact (hnl' r (List.mem_cons_self r rs)) (he ▸ List.mem_of_mem_head? hc)
          omega
        · have h0 : leadNL (l ++ '\n' :: joinNl (r :: rs)) = 0 := by
            apply leadNL_zero_of_head
            intro c hc he
            rw [List.head?_append_of_ne_nil _ hl] at hc
            exact hnll (he ▸ List.mem_of_mem_head? hc)
          omega

/-- Characters of split pieces come from the split input. -/
theorem mem_of_mem_splitNl : ∀ (s l : List Char) (c : Char),
    l ∈ splitNl s → c ∈ l → c ∈ s := by
  intro s
  induction s with
  | nil =>
    intro l c hl hc
    simp [splitNl] at hl
    subst hl
    cases hc
  | cons a rest ih =>
    intro l c hl hc
    by_cases ha : a = '\n'
    · rw [ha] at hl ⊢
      simp only [splitNl, if_pos rfl] at hl
      rcases List.mem_cons.mp hl with h1 | h1
      · subst h1
        cases hc
      · exact List.mem_cons_of_mem _ (ih l c h1 hc)
    · simp only [splitNl, if_neg ha] at hl
      cases h : splitNl rest with
      | nil => exact absurd h (splitNl_ne_nil rest)
      | cons hd tl =>
        rw [h] at hl
        rcases List.mem_cons.mp hl with h1 | h1
        · subst h1
          rcases List.mem_cons.mp hc with h2 | h2
          · exact h2 ▸ List.mem_cons_self a rest
          · exact List.mem_cons_of_mem _ (ih hd c (h ▸ List.mem_cons_self hd tl) h2)
        · exact List.mem_cons_of_mem _ (ih l c (h ▸ List.mem_cons_of_mem hd h1) hc)

/-- Mapping `jsTrim` over already-trimmed lines changes nothing. -/
theorem map_jsTrim_id (L : List (List Char)) (h : ∀ l ∈ L, jsTrim l = l) :
    L.map jsTrim = L :=
  (List.map_congr_left h).trans (List.map_id L)

/-- Trimming swallows a leading line break. -/
theorem jsTrim_cons_nl (s : List Char) : jsTrim ('\n' :: s) = jsTrim s := by
  unfold jsTrim
  rw [List.dropWhile_cons, if_pos (by decide)]

/-- Appending a final blank line to a join appends a line break. -/
theorem joinNl_concat_blank : ∀ L : List (List Char), L ≠ [] →
    joinNl (L ++ [[]]) = joinNl L ++ ['\n'] := by
  intro L
  induction L with
  | nil => intro h; exact absurd rfl h
  | cons l rest ih =>
    intro _
    cases rest with
    | nil => rfl
    | cons r rs =>
      have hexp : (l :: r :: rs) ++ [[]] = l :: r :: (rs ++ [[]]) := rfl
      rw [hexp, joinNl_cons l r (rs ++ [[]]), joinNl_cons l r rs]
      have ih2 := ih (by simp)
      rw [show ((r :: rs) ++ [[]] : List (List Char)) = r :: (rs ++ [[]]) from rfl] at ih2
      rw [ih2]
      simp

/-- Trimming swallows a trailing line break. -/
theorem jsTrim_concat_nl (s : List Char) : jsTrim (s ++ ['\n']) = jsTrim s := by
  have hdw : ∀ t : List Char, (t ++ ['\n']).dropWhile isJsWs
      = if t.dropWhile isJsWs = [] then [] else t.dropWhile isJsWs ++ ['\n'] := by
    intro t
    induction t with
    | nil =>
      rw [List.nil_append, List.dropWhile_cons, if_pos (by decide)]
      simp [List.dropWhile]
    | cons c t' ih =>
      by_cases hc : isJsWs c = true
      · rw [List.cons_append, List.dropWhile_cons, if_pos hc, List.dropWhile_cons, if_pos hc]
        exact ih
      · have hstop : (c :: t').dropWhile isJsWs = c :: t' := by
          rw [List.dropWhile_cons, if_neg hc]
        rw [List.cons_append, List.dropWhile_cons, if_neg hc, hstop, if_neg (by simp)]
        simp
  unfold jsTrim
  rw [hdw s]
  by_cases h : s.dropWhile isJsWs = []
  · rw [if_pos h, h]
  · rw [if_neg h, List.reverse_append]
    rw [show (['\n'] : List Char).reverse ++ (s.dropWhile isJsWs).reverse
      = '\n' :: (s.dropWhile isJsWs).reverse from by simp]
    rw [List.dropWhile_cons, if_pos (by decide)]

/-- The last character of a join is the last character of the last piece,
when that piece is non-blank. -/
theorem joinNl_getLast : ∀ (L : List (List Char)) (g : List Char),
    L.getLast? = some g → g ≠ [] → (joinNl L).getLast? = g.getLast? := by
  intro L
  induction L with
  | nil => intro g h _; cases h
  | cons l rest ih =>
    intro g h hg
    cases rest with
    | nil =>
      have : g = l := by
        have := h
        simp [List.getLast?] at this
        exact this.symm
      subst this
      rfl
    | cons r rs =>
      have hlast : (r :: rs).getLast? = some g := by
        rw [← List.getLast?_cons_cons]
        exact h
      have hjr := ih g hlast hg
      rw [joinNl_cons]
      rw [List.getLast?_append_of_ne_nil _ (by simp : ('\n' :: joinNl (r :: rs)) ≠ [])]
      cases hj : joinNl (r :: rs) with
      | nil =>
        rw [hj] at hjr
        have hgn : g.getLast? = none := hjr.symm
        rw [List.getLast?_eq_none_iff] at hgn
        exact absurd hgn hg
      | cons a t =>
        rw [List.getLast?_cons_cons]
        rw [hj] at hjr
        exact hjr

/-- The last element of a list is a member. -/
theorem getLast?_mem : ∀ (L : List (List Char)) (g : List Char),
    L.getLast? = some g → g ∈ L := by
  intro L
  induction L with
  | nil => intro g h; cases h
  | cons l rest ih =>
    intro g h
    cases rest with
    | nil =>
      have hg : g = l := by
        simp [List.getLast?] at h
        exact h.symm
      exact hg ▸ List.mem_cons_self l []
    | cons r rs =>
      rw [List.getLast?_cons_cons] at h
      exact List.mem_cons_of_mem l (ih g h)

/-- A join of trimmed, break-free lines with non-blank ends is already
trimmed. -/
theorem trim_joinNl_core (L : List (List Char))
    (htr : ∀ l ∈ L, jsTrim l = l)
    (hh : ∀ l, L.head? = some l → l ≠ [])
    (hg : ∀ l, L.getLast? = some l → l ≠ []) :
    jsTrim (joinNl L) = joinNl L := by
  cases L with
  | nil => rfl
  | cons r rs =>
    apply jsTrim_eq_self
    · intro c hc
      have hr : r ≠ [] := hh r rfl
      rw [joinNl_head r rs hr] at hc
      apply jsTrim_head_ok r
      rw [htr r (List.mem_cons_self r rs)]
      exact hc
    · intro c hc
      obtain ⟨g, hgl⟩ : ∃ g, (r :: rs).getLast? = some g := by
        cases hl : (r :: rs).getLast? with
        | none =>
          rw [List.getLast?_eq_none_iff] at hl
          cases hl
        | some g => exact ⟨g, rfl⟩
      have hgne : g ≠ [] := hg g hgl
      rw [joinNl_getLast (r :: rs) g hgl hgne] at hc
      apply jsTrim_last_ok g
      rw [htr g (getLast?_mem (r :: rs) g hgl)]
      exact hc

/-- Trimming the join of a line list with a non-blank first line: at most a
single trailing blank line is stripped, the result joins an infix with
non-blank ends. -/
theorem trim_joinNl_strip_right (L : List (List Char))
    (htr : ∀ l ∈ L, jsTrim l = l) (hadj : NoAdjBlank L)
    (hh : ∀ l, L.head? = some l → l ≠ []) :
    ∃ L', jsTrim (joinNl L) = joinNl L' ∧ L' <:+: L ∧
      (∀ l, L'.head? = some l → l ≠ []) ∧ (∀ l, L'.getLast? = some l → l ≠ []) := by
  cases hlast : L.getLast? with
  | none =>
    rw [List.getLast?_eq_none_iff] at hlast
    subst hlast
    refine ⟨[], rfl, List.infix_rfl, ?_, ?_⟩
    · intro l h
      cases h
    · intro l h
      cases h
  | some g =>
    by_cases hg : g = []
    · subst hg
      have hsplit : L.dropLast ++ [[]] = L :=
        List.dropLast_append_getLast? [] (Option.mem_def.mpr hlast)
      have hdne : L.dropLast ≠ [] := by
        intro hc
        have : L = [[]] := by rw [← hsplit, hc]; rfl
        exact hh [] (by rw [this]; rfl) rfl
      have hjoin : joinNl L = joinNl L.dropLast ++ ['\n'] := by
        conv_lhs => rw [← hsplit]
        exact joinNl_concat_blank L.dropLast hdne
      have hhead : L.dropLast.head? = L.head? := by
        cases L with
        | nil => exact absurd rfl hdne
        | cons x rest =>
          cases rest with
          | nil => exact absurd rfl hdne
          | cons y t => rfl
      have hlastd : ∀ l, L.dropLast.getLast? = some l → l ≠ [] := by
        intro l hl hc
        have hch : List.Chain' (fun a b => ¬(a = [] ∧ b = [])) (L.dropLast ++ [[]]) := by
          rw [hsplit]
          exact hadj
        rw [List.chain'_append] at hch
        exact hch.2.2 l hl [] rfl ⟨hc, rfl⟩
      refine ⟨L.dropLast, ?_, (List.dropLast_prefix L).isInfix, ?_, hlastd⟩
      · rw [hjoin, jsTrim_concat_nl]
        exact trim_joinNl_core L.dropLast
          (fun l hl => htr l ((List.dropLast_prefix L).sublist.mem hl))
          (fun l hl => hh l (hhead ▸ hl)) hlastd
      · intro l hl
        exact hh l (hhead ▸ hl)
    · refine ⟨L, ?_, List.infix_rfl, hh, ?_⟩
      · exact trim_joinNl_core L htr hh
          (fun l hl => by rw [hlast] at hl; cases hl; exact hg)
      · intro l hl
        rw [hlast] at hl
        cases hl
        exact hg

/-- Trimming the join of trimmed, break-free lines with no two adjacent
blanks: at most one leading and one trailing blank line are stripped; the
result joins an infix of the lines whose two ends are non-blank. -/
theorem trim_joinNl_strip (L : List (List Char))
    (htr : ∀ l ∈ L, jsTrim l = l) (hadj : NoAdjBlank L) :
    ∃ L', jsTrim (joinNl L) = joinNl L' ∧ L' <:+: L ∧
      (∀ l, L'.head? = some l → l ≠ []) ∧ (∀ l, L'.getLast? = some l → l ≠ []) := by
  cases L with
  | nil =>
    refine ⟨[], rfl, List.infix_rfl, ?_, ?_⟩
    · intro l h
      cases h
    · intro l h
      cases h
  | cons r rs =>
    by_cases hr : r = []
    · subst hr
      cases rs with
      | nil =>
        refine ⟨[], rfl, ⟨[], [[]], rfl⟩, ?_, ?_⟩
        · intro l h
          cases h
        · intro l h
          cases h
      | cons r2 rs2 =>
        have hjoin : joinNl ([] :: r2 :: rs2) = '\n' :: joinNl (r2 :: rs2) := rfl
        have hr2 : r2 ≠ [] := by
          intro hc
          exact (List.chain'_cons'.mp hadj).1 r2 rfl ⟨rfl, hc⟩
        obtain ⟨L', he, hinf, hhd, hgl⟩ := trim_joinNl_strip_right (r2 :: rs2)
          (fun l hl => htr l (List.mem_cons_of_mem _ hl)) (List.Chain'.tail hadj)
          (fun l hl => by cases hl; exact hr2)
        refine ⟨L', ?_, hinf.trans (List.suffix_cons [] (r2 :: rs2)).isInfix, hhd, hgl⟩
        rw [hjoin, jsTrim_cons_nl]
        exact he
    · exact trim_joinNl_strip_right (r :: rs) htr hadj (fun l hl => by cases hl; exact hr)

/-- Merging then trimming a list of trimmed, break-free lines with no two
adjacent blanks yields a join of lines that are break-free, trimmed, stable
under further merging, with no adjacent blanks and non-blank ends. -/
theorem merge_then_trim (C : List (List Char)) (hctrim : ∀ l ∈ C, jsTrim l = l)
    (hcnl : ∀ l ∈ C, '\n' ∉ l) (hcadj : NoAdjBlank C) :
    ∃ L, jsTrim (joinNl (mergeLines C)) = joinNl L ∧ (∀ l ∈ L, '\n' ∉ l) ∧
      NoAdjBlank L ∧ MergeStable L ∧ (∀ l ∈ L, jsTrim l = l) ∧
      (∀ l, L.head? = some l → l ≠ []) ∧ (∀ l, L.getLast? = some l → l ≠ []) := by
  have hM_trim : ∀ m ∈ mergeLines C, jsTrim m = m :=
    (merge_trimmed C.length C (Nat.le_refl _) hctrim).2
  have hM_nl : ∀ m ∈ mergeLines C, '\n' ∉ m := by
    intro m hm hc
    rcases (merge_mem C.length C (Nat.le_refl _)).2 m '\n' hm hc with ⟨l, hl, hcl⟩ | hEq
    · exact hcnl l hl hcl
    · exact absurd hEq (by decide)
  have hM_adj : NoAdjBlank (mergeLines C) :=
    (merge_noAdj C.length C (Nat.le_refl _) hcadj).2
  have hM_st : MergeStable (mergeLines C) := (merge_stable C.length C (Nat.le_refl _)).2
  obtain ⟨L, hL, hinf, hh, hg⟩ := trim_joinNl_strip (mergeLines C) hM_trim hM_adj
  refine ⟨L, hL, ?_, ?_, ?_, ?_, hh, hg⟩
  · intro l hl
    exact hM_nl l (hinf.sublist.mem hl)
  · exact List.Chain'.infix hM_adj hinf
  · exact List.Chain'.infix hM_st hinf
  · intro l hl
    exact hM_trim l (hinf.sublist.mem hl)

/-- On a hyphen-free input the normalizer output is a join of break-free,
trimmed, merge-stable lines with no adjacent blanks and non-blank ends. -/
theorem normalizeChars_structure (x : List Char) (hx : '-' ∉ x) :
    ∃ L, normalizeChars x = joinNl L ∧ (∀ l ∈ L, '\n' ∉ l) ∧ NoAdjBlank L ∧
      MergeStable L ∧ (∀ l ∈ L, jsTrim l = l) ∧
      (∀ l, L.head? = some l → l ≠ []) ∧ (∀ l, L.getLast? = some l → l ≠ []) := by
  have hctrim : ∀ l ∈ collapseBlanks false ((splitNl (fixLineEndings x)).map jsTrim),
      jsTrim l = l := by
    intro l hl
    rcases mem_collapseBlanks false _ l hl with h1 | h1
    · rcases List.mem_map.mp h1 with ⟨a, _, ha⟩
      rw [← ha]
      exact jsTrim_idem a
    · rw [h1]
      rfl
  have hcnl : ∀ l ∈ collapseBlanks false ((splitNl (fixLineEndings x)).map jsTrim),
      '\n' ∉ l := by
    intro l hl hc
    rcases mem_collapseBlanks false _ l hl with h1 | h1
    · rcases List.mem_map.mp h1 with ⟨a, ha, hla⟩
      rw [← hla] at hc
      exact noNl_of_mem_splitNl _ a ha (mem_jsTrim a '\n' hc)
    · rw [h1] at hc
      cases hc
  have hcadj : NoAdjBlank (collapseBlanks false ((splitNl (fixLineEndings x)).map jsTrim)) :=
    collapse_noAdj _ false
  have hcne : collapseBlanks false ((splitNl (fixLineEndings x)).map jsTrim) ≠ [] :=
    collapse_ne_nil _ (fun hc => splitNl_ne_nil (fixLineEndings x) (List.map_eq_nil_iff.mp hc))
  have hcnh : '-' ∉ joinNl (collapseBlanks false ((splitNl (fixLineEndings x)).map jsTrim)) := by
    intro hmem
    rcases mem_joinNl _ '-' hmem with ⟨l, hl, hcl⟩ | hEq
    · rcases mem_collapseBlanks false _ l hl with h1 | h1
      · rcases List.mem_map.mp h1 with ⟨a, ha, hla⟩
        rw [← hla] at hcl
        have hax : '-' ∈ fixLineEndings x :=
          mem_of_mem_splitNl _ a '-' ha (mem_jsTrim a '-' hcl)
        rcases mem_fixLineEndings x '-' hax with h2 | h2
        · exact hx h2
        · exact absurd h2 (by decide)
      · rw [h1] at hcl
        cases hcl
    · exact absurd hEq (by decide)
  have hrm : removeSoftHyphen
        (joinNl (collapseBlanks false ((splitNl (fixLineEndings x)).map jsTrim)))
      = joinNl (collapseBlanks false ((splitNl (fixLineEndings x)).map jsTrim)) :=
    removeSoftHyphen_id _ hcnh
  have hsp : splitNl (joinNl (collapseBlanks false ((splitNl (fixLineEndings x)).map jsTrim)))
      = collapseBlanks false ((splitNl (fixLineEndings x)).map jsTrim) :=
    splitNl_joinNl _ hcne hcnl
  obtain ⟨L, hL, hnl, hadj, hst, htrim, hh, hg⟩ := merge_then_trim _ hctrim hcnl hcadj
  refine ⟨L, ?_, hnl, hadj, hst, htrim, hh, hg⟩
  calc normalizeChars x
      = jsTrim (joinNl (mergeLines (splitNl (removeSoftHyphen
          (joinNl (collapseBlanks false ((splitNl (fixLineEndings x)).map jsTrim))))))) := rfl
    _ = jsTrim (joinNl (mergeLines
          (collapseBlanks false ((splitNl (fixLineEndings x)).map jsTrim)))) := by
        rw [hrm, hsp]
    _ = joinNl L := hL

/-- The normalizer output never contains a carriage return. -/
theorem noCr_normalizeChars (x : List Char) : '\r' ∉ normalizeChars x := by
  intro h
  have h1 : '\r' ∈ joinNl (mergeLines (splitNl (removeSoftHyphen
      (joinNl (collapseBlanks false ((splitNl (fixLineEndings x)).map jsTrim)))))) :=
    mem_jsTrim _ '\r' h
  rcases mem_joinNl _ '\r' h1 with ⟨m, hm, hcm⟩ | hEq
  · rcases (merge_mem (splitNl (removeSoftHyphen (joinNl (collapseBlanks false
        ((splitNl (fixLineEndings x)).map jsTrim))))).length _ (Nat.le_refl _)).2
        m '\r' hm hcm with ⟨l, hl, hcl⟩ | hEq2
    · have h2 : '\r' ∈ removeSoftHyphen (joinNl (collapseBlanks false
          ((splitNl (fixLineEndings x)).map jsTrim))) :=
        mem_of_mem_splitNl _ l '\r' hl hcl
      have h3 := mem_removeSoftHyphen _ '\r' h2
      rcases mem_joinNl _ '\r' h3 with ⟨l2, hl2, hcl2⟩ | hEq3
      · rcases mem_collapseBlanks false _ l2 hl2 with h4 | h4
        · rcases List.mem_map.mp h4 with ⟨a, ha, hla⟩
          rw [← hla] at hcl2
          have h5 : '\r' ∈ fixLineEndings x :=
            mem_of_mem_splitNl _ a '\r' ha (mem_jsTrim a '\r' hcl2)
          exact noCr_fixLineEndings x h5
        · rw [h4] at hcl2
          cases hcl2
      · exact absurd hEq3 (by decide)
    · exact absurd hEq2 (by decide)
  · exact absurd hEq (by decide)

/-- The normalizer output of a hyphen-free input is hyphen-free. -/
theorem noHyphen_normalizeChars (x : List Char) (hx : '-' ∉ x) :
    '-' ∉ normalizeChars x := by
  intro h
  have h1 : '-' ∈ joinNl (mergeLines (splitNl (removeSoftHyphen
      (joinNl (collapseBlanks false ((splitNl (fixLineEndings x)).map jsTrim)))))) :=
    mem_jsTrim _ '-' h
  rcases mem_joinNl _ '-' h1 with ⟨m, hm, hcm⟩ | hEq
  · rcases (merge_mem (splitNl (removeSoftHyphen (joinNl (collapseBlanks false
        ((splitNl (fixLineEndings x)).map jsTrim))))).length _ (Nat.le_refl _)).2
        m '-' hm hcm with ⟨l, hl, hcl⟩ | hEq2
    · have h2 : '-' ∈ removeSoftHyphen (joinNl (collapseBlanks false
          ((splitNl (fixLineEndings x)).map jsTrim))) :=
        mem_of_mem_splitNl _ l '-' hl hcl
      have h3 := mem_removeSoftHyphen _ '-' h2
      rcases mem_joinNl _ '-' h3 with ⟨l2, hl2, hcl2⟩ | hEq3
      · rcases mem_collapseBlanks false _ l2 hl2 with h4 | h4
        · rcases List.mem_map.mp h4 with ⟨a, ha, hla⟩
          rw [← hla] at hcl2
          have h5 : '-' ∈ fixLineEndings x :=
            mem_of_mem_splitNl _ a '-' ha (mem_jsTrim a '-' hcl2)
          rcases mem_fixLineEndings x '-' h5 with h6 | h6
          · exact hx h6
          · exact absurd h6 (by decide)
        · rw [h4] at hcl2
          cases hcl2
      · exact absurd hEq3 (by decide)
    · exact absurd hEq2 (by decide)
  · exact absurd hEq (by decide)

/-- On hyphen-free inputs a second normalizer pass changes nothing. -/
theorem normalizeChars_idem (x : List Char) (hx : '-' ∉ x) :
    normalizeChars (normalizeChars x) = normalizeChars x := by
  obtain ⟨L, h, hnl, hadj, hstable, htrim, hh, hg⟩ := normalizeChars_structure x hx
  rw [h]
  cases L with
  | nil => rfl
  | cons r rs =>
    have hLne : (r :: rs) ≠ ([] : List (List Char)) := by simp
    have hnr : '\r' ∉ joinNl (r :: rs) := by
      rw [← h]
      exact noCr_normalizeChars x
    have hnh : '-' ∉ joinNl (r :: rs) := by
      rw [← h]
      exact noHyphen_normalizeChars x hx
    have hfix : fixLineEndings (joinNl (r :: rs)) = joinNl (r :: rs) :=
      fixLineEndings_id _ hnr
    have hsplit : splitNl (joinNl (r :: rs)) = r :: rs := splitNl_joinNl _ hLne hnl
    have hmap : (r :: rs).map jsTrim = r :: rs := map_jsTrim_id _ htrim
    have hcol : collapseBlanks false (r :: rs) = r :: rs :=
      collapse_eq_self _ false hadj (by intro hc; cases hc)
    have hrm : removeSoftHyphen (joinNl (r :: rs)) = joinNl (r :: rs) :=
      removeSoftHyphen_id _ hnh
    have hmerge : mergeLines (r :: rs) = r :: rs := mergeLines_eq_self _ hstable
    have hcore : jsTrim (joinNl (r :: rs)) = joinNl (r :: rs) :=
      trim_joinNl_core _ htrim hh hg
    calc normalizeChars (joinNl (r :: rs))
        = jsTrim (joinNl (mergeLines (splitNl (removeSoftHyphen (joinNl (collapseBlanks false
            ((splitNl (fixLineEndings (joinNl (r :: rs)))).map jsTrim))))))) := rfl
      _ = joinNl (r :: rs) := by
          rw [hfix, hsplit, hmap, hcol, hrm, hsplit, hmerge, hcore]

/-- C2: the text normalizer is idempotent — corrected: idempotence holds for
every input string containing no hyphen.  (For inputs with a hyphen directly
before a line break the claim fails: the soft-hyphen removal can splice a
blank line onto a preceding blank line, leaving a triple line break that a
second pass collapses; see the counterexample.) -/
theorem normalizeText_idempotent_on_hyphen_free (s : String) (h : '-' ∉ s.data) :
    normalizeText (normalizeText s) = normalizeText s := by
  unfold normalizeText
  exact congrArg String.mk (normalizeChars_idem s.data h)

/-- C2 witness: idempotence at a concrete hyphen-free input. -/
theorem normalizeText_idempotent_on_hyphen_free_witness :
    '-' ∉ "linha um\nlinha dois  ".data ∧
    normalizeText (normalizeText "linha um\nlinha dois  ")
      = normalizeText "linha um\nlinha dois  " :=
  ⟨by decide, normalizeText_idempotent_on_hyphen_free "linha um\nlinha dois  " (by decide)⟩

/-- C2 counterexample: on the input below (a lone hyphen line between two
blank lines) the soft-hyphen replace glues the hyphen's line break away,
producing a triple line break that only the second pass collapses, so the two
passes disagree. -/
theorem normalizeText_not_idempotent :
    normalizeText (normalizeText "x\n\n-\n\ny") ≠ normalizeText "x\n\n-\n\ny" := by
  decide

/-- C9: corrected — the normalizer output never contains a carriage return
(for every input), but the absence of a run of three consecutive line breaks
is guaranteed only for inputs containing no hyphen: the soft-hyphen removal
of step 4 runs after the blank-line collapse of step 3 and can recreate a
triple line break (see the counterexample). -/
theorem normalizeText_no_cr_no_triple (s : String) :
    '\r' ∉ (normalizeText s).data ∧
    ('-' ∉ s.data → ¬(['\n', '\n', '\n'] <:+: (normalizeText s).data)) := by
  constructor
  · show '\r' ∉ normalizeChars s.data
    exact noCr_normalizeChars s.data
  · intro hx hinf
    obtain ⟨L, hL, hnl, hadj, _, _, _, _⟩ := normalizeChars_structure s.data hx
    rw [show (normalizeText s).data = normalizeChars s.data from rfl, hL] at hinf
    exact (joinNl_noTriple L hnl hadj).1 hinf

/-- C9 witness: both parts at a concrete hyphen-free input with a CRLF and a
run of blank lines. -/
theorem normalizeText_no_cr_no_triple_witness :
    '\r' ∉ (normalizeText "a\r\n\n\n\nb").data ∧
    ('-' ∉ "a\r\n\n\n\nb".data ∧
     ¬(['\n', '\n', '\n'] <:+: (normalizeText "a\r\n\n\n\nb").data)) :=
  ⟨(normalizeText_no_cr_no_triple "a\r\n\n\n\nb").1, by decide,
   (normalizeText_no_cr_no_triple "a\r\n\n\n\nb").2 (by decide)⟩

/-- C9 counterexample: an input with a hyphen whose normalizer output
contains three consecutive line breaks. -/
theorem normalizeText_triple_newline_counterexample :
    ['\n', '\n', '\n'] <:+: (normalizeText "x\n\n-\n\ny").data := by
  decide

/-- C4: the merge pass joins the current line with the next line (inserting a
single space and continuing greedily against the following lines) exactly
when `canJoin` holds, and `canJoin` holds exactly when the next line is
non-blank, the current line ends with a mid-word character (the regex class
of letters including accented Portuguese ones, case-insensitively) or a
comma, the current line does not end with one of the sentence enders
period, semicolon, colon, question or exclamation mark, and the next line
does not begin with an uppercase letter (including accented capitals); in
particular a line ending in a colon is never joined. -/
theorem merge_join_characterization :
    (∀ cur nxt rest, mergeGo cur (nxt :: rest)
        = if canJoin cur nxt then mergeGo (cur ++ ' ' :: nxt) rest
          else cur :: mergeLines (nxt :: rest)) ∧
    (∀ cur nxt, canJoin cur nxt = true ↔
      (nxt ≠ [] ∧
       (∃ c, cur.getLast? = some c ∧ (isMidWordChar c = true ∨ c = ',')) ∧
       (∀ c, cur.getLast? = some c → c ≠ '.' ∧ c ≠ ';' ∧ c ≠ ':' ∧ c ≠ '?' ∧ c ≠ '!') ∧
       (∀ c, nxt.head? = some c → isUpperStartChar c = false))) ∧
    (∀ cur nxt rest, cur.getLast? = some ':' →
      mergeGo cur (nxt :: rest) = cur :: mergeLines (nxt :: rest)) := by
  refine ⟨mergeGo_cons, ?_, ?_⟩
  · intro cur nxt
    unfold canJoin endsMidWord endsComma sentenceEnder upperStart
    cases hc : cur.getLast? with
    | none => simp
    | some c =>
      cases hn : nxt.head? with
      | none =>
        have hne : nxt = [] := List.head?_eq_none_iff.mp hn
        subst hne
        simp
      | some d =>
        have hne : nxt ≠ [] := by
          intro h
          rw [h] at hn
          cases hn
        have hemp : nxt.isEmpty = false := by simp [List.isEmpty_iff, hne]
        rw [hemp]
        simp only [Bool.not_false, Bool.true_and, Bool.and_eq_true, Bool.or_eq_true,
          Bool.not_eq_true', decide_eq_true_eq, ne_eq]
        constructor
        · rintro ⟨⟨hmw, hsen⟩, hup⟩
          refine ⟨hne, ⟨c, rfl, ?_⟩, ?_, ?_⟩
          · rcases hmw with h1 | h1
            · exact Or.inl h1
            · exact Or.inr h1
          · intro e he
            cases he
            simp only [Bool.or_eq_false_iff, decide_eq_false_iff_not] at hsen
            exact ⟨hsen.1.1.1.1, hsen.1.1.1.2, hsen.1.1.2, hsen.1.2, hsen.2⟩
          · intro e he
            cases he
            simpa using hup
        · rintro ⟨_, ⟨e, he, hmw⟩, hsen, hup⟩
          cases he
          refine ⟨⟨?_, ?_⟩, ?_⟩
          · rcases hmw with h1 | h1
            · exact Or.inl h1
            · exact Or.inr h1
          · have := hsen c rfl
            simp only [Bool.or_eq_false_iff, decide_eq_false_iff_not]
            exact ⟨⟨⟨⟨this.1, this.2.1⟩, this.2.2.1⟩, this.2.2.2.1⟩, this.2.2.2.2⟩
          · simpa using hup d rfl
  · intro cur nxt rest hc
    have hs : sentenceEnder cur = true := by
      unfold sentenceEnder
      rw [hc]
      simp
    have hj : canJoin cur nxt = false := by
      unfold canJoin
      rw [hs]
      simp
    rw [mergeGo_cons, if_neg (by simp [hj])]

/-- C4 witness: the step equation, a concrete satisfied join condition, and
the colon block, each at concrete lines. -/
theorem merge_join_characterization_witness :
    mergeGo ['e', 'm'] [['d', 'e']]
      = (if canJoin ['e', 'm'] ['d', 'e'] then mergeGo (['e', 'm'] ++ ' ' :: ['d', 'e']) []
         else ['e', 'm'] :: mergeLines [['d', 'e']]) ∧
    canJoin ['t', 'o'] ['d', 'e'] = true ∧
    mergeGo ['a', ':'] [['b']] = ['a', ':'] :: mergeLines [['b']] := by
  refine ⟨merge_join_characterization.1 ['e', 'm'] ['d', 'e'] [], ?_,
    merge_join_characterization.2.2 ['a', ':'] ['b'] [] (by decide)⟩
  apply (merge_join_characterization.2.1 ['t', 'o'] ['d', 'e']).mpr
  refine ⟨by decide, ⟨'o', by decide, Or.inl (by decide)⟩, ?_, ?_⟩
  · intro c hcc
    rw [show (['t', 'o'] : List Char).getLast? = some 'o' from by decide] at hcc
    injection hcc with h
    subst h
    decide
  · intro c hcc
    rw [show (['d', 'e'] : List Char).head? = some 'd' from by decide] at hcc
    injection hcc with h
    subst h
    decide

end Astro
